import Mathlib

/-!
# Verification of the EdgeSplitModifier mesh post-processing utility

This file gives a shallow embedding of `src/src/modifiers/EdgeSplitModifier.ts`
and proves or refutes the specified properties of its topology-splitting
algorithm.

Modelling conventions:
* JavaScript numbers (IEEE doubles / `Float32Array` entries) are modelled as
  real numbers `ℝ`; exact real arithmetic stands in for floating point.
* Typed-array reads out of range (JS `undefined`, which becomes `NaN` when
  stored) are modelled by `List.getD _ _ 0`; all theorems below either keep
  indices in range by hypothesis or exercise a code path whose result does not
  depend on the defaulted value.
* A JS exception (an explicit `throw` or an implicit `TypeError`) is modelled
  by `Except.error`; the legacy-`Geometry` early `return` (which yields
  `undefined` instead of a mesh, after printing to the console) is also
  modelled as an error value since no mesh is produced.
* Vertex indices stay far below `2^32`, so the `Uint32Array` truncation of the
  rebuilt index buffer is not modelled.
* The whole embedding is purely functional, mirroring the fact that `modify`
  clones the caller's geometry before mutating anything.
-/

namespace EdgeSplitMod

noncomputable section

/-! ## three.js `Vector3` operations used by the modifier -/

structure Vec3 where
  x : ℝ
  y : ℝ
  z : ℝ

def Vec3.sub (a b : Vec3) : Vec3 :=
  ⟨a.x - b.x, a.y - b.y, a.z - b.z⟩

def Vec3.add (a b : Vec3) : Vec3 :=
  ⟨a.x + b.x, a.y + b.y, a.z + b.z⟩

def Vec3.dot (a b : Vec3) : ℝ :=
  a.x * b.x + a.y * b.y + a.z * b.z

/-- `_C.cross(_A)` : component formula of three.js `Vector3.cross`. -/
def Vec3.cross (a b : Vec3) : Vec3 :=
  ⟨a.y * b.z - a.z * b.y, a.z * b.x - a.x * b.z, a.x * b.y - a.y * b.x⟩

def Vec3.len (a : Vec3) : ℝ :=
  Real.sqrt (a.x * a.x + a.y * a.y + a.z * a.z)

/-- three.js `Vector3.normalize`: `divideScalar(length() || 1)` — a zero
length is replaced by 1 (so the zero vector stays zero). -/
def Vec3.normalize (a : Vec3) : Vec3 :=
  let d := if a.len = 0 then 1 else a.len
  ⟨a.x / d, a.y / d, a.z / d⟩

/-! ## Face Normal Table (`computeNormals`, lines 12-52) -/

/-- Read the vertex at index `i` out of the flat position array
(`positions[3*i]`, `positions[3*i+1]`, `positions[3*i+2]`). -/
def posAt (positions : List ℝ) (i : ℕ) : Vec3 :=
  ⟨positions.getD (3 * i) 0, positions.getD (3 * i + 1) 0,
   positions.getD (3 * i + 2) 0⟩

/-- The face normal of the triangle whose first corner sits at slot `i`:
`normalize(cross(p2 - p1, p0 - p1))` with `p0,p1,p2` the resolved positions
of slots `i`, `i+1`, `i+2` (source lines 18-40, `_C.cross(_A).normalize()`). -/
def triangleNormal (positions : List ℝ) (indexes : List ℕ) (i : ℕ) : Vec3 :=
  let pA := posAt positions (indexes.getD i 0)
  let pB := posAt positions (indexes.getD (i + 1) 0)
  let pC := posAt positions (indexes.getD (i + 2) 0)
  ((pC.sub pB).cross (pA.sub pB)).normalize

/-- `computeNormals`: a `Float32Array(indexes.length * 3)` (zero filled) in
which every full triangle `t` writes its normal into the nine entries for its
three corners. -/
def computeNormals (positions : List ℝ) (indexes : List ℕ) : List ℝ :=
  ((List.range (indexes.length / 3)).flatMap fun t =>
    let n := triangleNormal positions indexes (3 * t)
    [n.x, n.y, n.z, n.x, n.y, n.z, n.x, n.y, n.z])
  ++ List.replicate (indexes.length * 3 - indexes.length / 3 * 9) 0

/-! ## Corner Index (`mapPositionsToIndexes`, lines 55-73)

`pointToIndexMap = Array(positions.length / 3)` creates a JS array of holes;
entries are only materialised (`= []` then `.push(i)`) for vertex indices that
actually occur in the index buffer.  A hole is modelled as `none`. -/

/-- JS array store `a[i] = x`: in range it overwrites, past the end it extends
the array with holes. -/
def jsArraySet {α : Type} (a : List (Option α)) (i : ℕ) (x : α) :
    List (Option α) :=
  if i < a.length then a.set i (some x)
  else a ++ List.replicate (i - a.length) none ++ [some x]

/-- The loop body of `mapPositionsToIndexes`, one iteration per slot. -/
def mptiGo (m : List (Option (List ℕ))) (slot : ℕ) :
    List ℕ → List (Option (List ℕ))
  | [] => m
  | index :: rest =>
      mptiGo (jsArraySet m index (((m.getD index none).getD []) ++ [slot]))
        (slot + 1) rest

def mapPositionsToIndexes (indexes : List ℕ) (nPoints : ℕ) :
    List (Option (List ℕ)) :=
  mptiGo (List.replicate nPoints none) 0 indexes

/-- `for (const vertexIndexes of pointToIndexMap)` hits every entry, including
holes; calling `edgeSplit` on a hole (`undefined`) throws a `TypeError`.
`sequenceOptions` returns `none` exactly when some entry is a hole. -/
def sequenceOptions {α : Type} : List (Option α) → Option (List α)
  | [] => some []
  | none :: _ => none
  | some a :: rest => (sequenceOptions rest).map (a :: ·)

/-! ## Group Partitioner (`edgeSplitToGroups` / `edgeSplit`, lines 76-150) -/

/-- The (re-normalised) normal stored for corner `j` in the flat per-corner
normal array (`_B.set(normals[3*j], ...).normalize()`). -/
def normalAt (normals : List ℝ) (j : ℕ) : Vec3 :=
  (⟨normals.getD (3 * j) 0, normals.getD (3 * j + 1) 0,
    normals.getD (3 * j + 2) 0⟩ : Vec3).normalize

structure GroupResult where
  splitGroup : List ℕ
  currentGroup : List ℕ

structure SplitData where
  original : ℕ
  indexes : List ℕ

/-- Loop body of `edgeSplitToGroups` (the source computes the seed's
normalised normal `_A` once up front; inlining `normalAt normals firstIndex`
at its single use is the same function). -/
def edgeSplitToGroupsStep (normals : List ℝ) (cutOff : ℝ) (firstIndex : ℕ)
    (r : GroupResult) (j : ℕ) : GroupResult :=
  if j ≠ firstIndex then
    if (normalAt normals j).dot (normalAt normals firstIndex) < cutOff then
      { r with splitGroup := r.splitGroup ++ [j] }
    else
      { r with currentGroup := r.currentGroup ++ [j] }
  else r

/-- `edgeSplitToGroups(indexes, cutOff, firstIndex)`: seed the current group
with `firstIndex`; every other corner joins the current group when the dot
product of its normal with the seed's is not below `cutOff`, and the split
group otherwise. -/
def edgeSplitToGroups (normals : List ℝ) (indexes : List ℕ) (cutOff : ℝ)
    (firstIndex : ℕ) : GroupResult :=
  indexes.foldl (edgeSplitToGroupsStep normals cutOff firstIndex)
    ⟨[], [firstIndex]⟩

/-- `let result = groupResults[0]; for (...) if (currentGroup longer) result = ...`:
keeps the first result of strictly maximal current-group size. -/
def selectBest (rs : List GroupResult) : GroupResult :=
  rs.foldl
    (fun r g => if g.currentGroup.length > r.currentGroup.length then g else r)
    (rs.headD ⟨[], []⟩)

/-- `original || result.currentGroup[0]` — JS truthiness: both `null` and the
number `0` are falsy, so an original corner slot `0` is replaced by the
current group's seed. -/
def jsOrIdx (original : Option ℕ) (d : ℕ) : ℕ :=
  match original with
  | none => d
  | some 0 => d
  | some (k + 1) => k + 1

theorem edgeSplitToGroups_foldl_eq (normals : List ℝ) (cutOff : ℝ)
    (firstIndex : ℕ) (l : List ℕ) (sp cg : List ℕ) :
    (l.foldl (edgeSplitToGroupsStep normals cutOff firstIndex) ⟨sp, cg⟩) =
      ⟨sp ++ l.filter (fun j => decide (j ≠ firstIndex) &&
          decide ((normalAt normals j).dot (normalAt normals firstIndex) < cutOff)),
       cg ++ l.filter (fun j => decide (j ≠ firstIndex) &&
          !decide ((normalAt normals j).dot (normalAt normals firstIndex) < cutOff))⟩ := by
  induction l generalizing sp cg with
  | nil => simp
  | cons a l ih =>
      rw [List.foldl_cons]
      by_cases ha : a = firstIndex
      · rw [show edgeSplitToGroupsStep normals cutOff firstIndex ⟨sp, cg⟩ a
            = (⟨sp, cg⟩ : GroupResult) from by
          simp [edgeSplitToGroupsStep, ha]]
        rw [ih]
        congr 1 <;> simp [List.filter_cons, ha]
      · by_cases hd :
            (normalAt normals a).dot (normalAt normals firstIndex) < cutOff
        · rw [show edgeSplitToGroupsStep normals cutOff firstIndex ⟨sp, cg⟩ a
              = (⟨sp ++ [a], cg⟩ : GroupResult) from by
            simp [edgeSplitToGroupsStep, ha, hd]]
          rw [ih]
          congr 1 <;> simp [List.filter_cons, ha, hd]
        · rw [show edgeSplitToGroupsStep normals cutOff firstIndex ⟨sp, cg⟩ a
              = (⟨sp, cg ++ [a]⟩ : GroupResult) from by
            simp [edgeSplitToGroupsStep, ha, hd]]
          rw [ih]
          congr 1 <;> simp [List.filter_cons, ha, hd]

/-- Characterisation of `edgeSplitToGroups` as two filters over the corner
list. -/
theorem edgeSplitToGroups_eq (normals : List ℝ) (indexes : List ℕ)
    (cutOff : ℝ) (firstIndex : ℕ) :
    edgeSplitToGroups normals indexes cutOff firstIndex =
      ⟨indexes.filter (fun j => decide (j ≠ firstIndex) &&
          decide ((normalAt normals j).dot (normalAt normals firstIndex) < cutOff)),
       firstIndex :: indexes.filter (fun j => decide (j ≠ firstIndex) &&
          !decide ((normalAt normals j).dot (normalAt normals firstIndex) < cutOff))⟩ := by
  have h := edgeSplitToGroups_foldl_eq normals cutOff firstIndex indexes [] [firstIndex]
  simpa [edgeSplitToGroups] using h

theorem currentGroup_ne_nil (normals : List ℝ) (indexes : List ℕ)
    (cutOff : ℝ) (s : ℕ) :
    (edgeSplitToGroups normals indexes cutOff s).currentGroup ≠ [] := by
  simp [edgeSplitToGroups_eq]

theorem splitGroup_length_lt (normals : List ℝ) (indexes : List ℕ)
    (cutOff : ℝ) (s : ℕ) (hs : s ∈ indexes) :
    (edgeSplitToGroups normals indexes cutOff s).splitGroup.length
      < indexes.length := by
  rw [edgeSplitToGroups_eq]
  show (indexes.filter _).length < indexes.length
  apply List.length_filter_lt_length_iff_exists.2
  exact ⟨s, hs, by simp⟩

theorem selectBest_mem (rs : List GroupResult) (h : rs ≠ []) :
    selectBest rs ∈ rs := by
  cases rs with
  | nil => exact absurd rfl h
  | cons r0 rest =>
      have hgen : ∀ (l : List GroupResult) (init : GroupResult),
          init ∈ r0 :: rest → (∀ g ∈ l, g ∈ r0 :: rest) →
          (l.foldl (fun r g =>
              if g.currentGroup.length > r.currentGroup.length then g else r)
            init) ∈ r0 :: rest := by
        intro l
        induction l with
        | nil => intro init hinit _; simpa using hinit
        | cons a l ih =>
            intro init hinit hl
            simp only [List.foldl_cons]
            by_cases hc : a.currentGroup.length > init.currentGroup.length
            · simp only [hc, if_pos]
              exact ih a (hl a (by simp)) (fun g hg => hl g (by simp [hg]))
            · simp only [hc, if_neg, not_false_iff]
              exact ih init hinit (fun g hg => hl g (by simp [hg]))
      have : selectBest (r0 :: rest) =
          (r0 :: rest).foldl (fun r g =>
            if g.currentGroup.length > r.currentGroup.length then g else r) r0 := by
        simp [selectBest]
      rw [this]
      exact hgen (r0 :: rest) r0 (by simp) (fun g hg => hg)

/-- The split group of the winning trial partition is strictly shorter than
the corner list, which is the termination measure of the recursion. -/
theorem selectBest_splitGroup_lt (normals : List ℝ) (indexes : List ℕ)
    (cutOff : ℝ) (h : indexes ≠ []) :
    (selectBest (indexes.map (edgeSplitToGroups normals indexes cutOff))).splitGroup.length
      < indexes.length := by
  have hne : indexes.map (edgeSplitToGroups normals indexes cutOff) ≠ [] := by
    simpa using h
  have hmem := selectBest_mem _ hne
  rcases List.mem_map.1 hmem with ⟨s, hs, heq⟩
  rw [← heq]
  exact splitGroup_length_lt normals indexes cutOff s hs

/-- `edgeSplit(indexes, cutOff, original)` (lines 110-150), with the pushes
into the shared `splitIndexes` array returned as a list (in push order). -/
def edgeSplit (normals : List ℝ) (indexes : List ℕ) (cutOff : ℝ)
    (original : Option ℕ) : List SplitData :=
  if indexes = [] then []
  else
    let groupResults := indexes.map (edgeSplitToGroups normals indexes cutOff)
    let result := selectBest groupResults
    (match original with
     | none => []
     | some o => [⟨o, result.currentGroup⟩])
    ++ (if result.splitGroup = [] then []
        else edgeSplit normals result.splitGroup cutOff
          (some (jsOrIdx original (result.currentGroup.headD 0))))
termination_by indexes.length
decreasing_by
  exact selectBest_splitGroup_lt normals indexes cutOff (by assumption)

/-- Unfolding lemma for `edgeSplit` on a non-empty corner list. -/
theorem edgeSplit_cons_eq (normals : List ℝ) (L : List ℕ) (cutOff : ℝ)
    (o : Option ℕ) (h : L ≠ []) :
    edgeSplit normals L cutOff o =
      (match o with
       | none => []
       | some o2 => [⟨o2,
           (selectBest (L.map (edgeSplitToGroups normals L cutOff))).currentGroup⟩])
      ++ (if (selectBest (L.map (edgeSplitToGroups normals L cutOff))).splitGroup = []
          then []
          else edgeSplit normals
            (selectBest (L.map (edgeSplitToGroups normals L cutOff))).splitGroup
            cutOff
            (some (jsOrIdx o
              ((selectBest (L.map (edgeSplitToGroups normals L cutOff))).currentGroup.headD 0)))) := by
  rw [edgeSplit, if_neg h]

/-! ## Properties of the candidate-seed selection -/

/-- The fold kernel of `selectBest` with an explicit initial value. -/
def selectBestFrom (init : GroupResult) (l : List GroupResult) : GroupResult :=
  l.foldl
    (fun r g => if g.currentGroup.length > r.currentGroup.length then g else r)
    init

theorem selectBest_eq_selectBestFrom (r0 : GroupResult)
    (rest : List GroupResult) :
    selectBest (r0 :: rest) = selectBestFrom r0 rest := by
  simp [selectBest, selectBestFrom]

/-- The fold keeps the first element (scanning `init :: l` left to right)
whose current group is strictly larger than everything before it and at least
as large as everything after it: a first-encountered maximum. -/
theorem selectBestFrom_first_max (l : List GroupResult) (init : GroupResult) :
    ∃ pre post,
      init :: l = pre ++ selectBestFrom init l :: post ∧
      (∀ r ∈ pre, r.currentGroup.length
        < (selectBestFrom init l).currentGroup.length) ∧
      (∀ r ∈ post, (selectBestFrom init l).currentGroup.length
        ≥ r.currentGroup.length) := by
  induction l generalizing init with
  | nil =>
      exact ⟨[], [], by simp [selectBestFrom], by simp, by simp⟩
  | cons g t ih =>
      have hstep : selectBestFrom init (g :: t) =
          selectBestFrom
            (if g.currentGroup.length > init.currentGroup.length then g
             else init) t := by
        simp [selectBestFrom]
      by_cases h : g.currentGroup.length > init.currentGroup.length
      · rw [hstep, if_pos h]
        obtain ⟨pre, post, heq, hlt, hge⟩ := ih g
        refine ⟨init :: pre, post, by simpa using heq, ?_, hge⟩
        intro r hr
        rcases List.mem_cons.1 hr with h1 | h1
        · subst h1
          have hg : g.currentGroup.length
              ≤ (selectBestFrom g t).currentGroup.length := by
            cases pre with
            | nil =>
                have h2 := heq
                simp only [List.nil_append, List.cons.injEq] at h2
                rw [← h2.1]
            | cons p0 pre2 =>
                have h2 := heq
                simp only [List.cons_append, List.cons.injEq] at h2
                have h3 := hlt p0 (by simp)
                rw [← h2.1] at h3
                exact le_of_lt h3
          exact lt_of_lt_of_le h hg
        · exact hlt r h1
      · rw [hstep, if_neg h]
        obtain ⟨pre, post, heq, hlt, hge⟩ := ih init
        cases pre with
        | nil =>
            have h2 := heq
            simp only [List.nil_append, List.cons.injEq] at h2
            refine ⟨[], g :: t, by rw [List.nil_append, ← h2.1], by simp, ?_⟩
            intro r hr
            rcases List.mem_cons.1 hr with h1 | h1
            · subst h1
              rw [← h2.1]
              exact le_of_not_lt h
            · rw [h2.2] at h1
              exact hge r h1
        | cons p0 pre2 =>
            have h2 := heq
            simp only [List.cons_append, List.cons.injEq] at h2
            have hdecomp : init :: g :: t =
                (init :: g :: pre2) ++ selectBestFrom init t :: post := by
              conv_lhs => rw [h2.2]
              simp
            refine ⟨init :: g :: pre2, post, hdecomp, ?_, hge⟩
            intro r hr
            have hinitlt : init.currentGroup.length
                < (selectBestFrom init t).currentGroup.length := by
              have h3 := hlt p0 (by simp)
              rwa [← h2.1] at h3
            rcases List.mem_cons.1 hr with h1 | h1
            · subst h1; exact hinitlt
            · rcases List.mem_cons.1 h1 with h3 | h3
              · subst h3
                exact lt_of_le_of_lt (le_of_not_lt h) hinitlt
              · exact hlt r (by simp [h3])

/-- If nothing in the list beats the initial value, the fold returns it. -/
theorem selectBestFrom_eq_init (l : List GroupResult) (init : GroupResult)
    (h : ∀ g ∈ l, g.currentGroup.length ≤ init.currentGroup.length) :
    selectBestFrom init l = init := by
  induction l with
  | nil => simp [selectBestFrom]
  | cons g t ih =>
      have hg : ¬ g.currentGroup.length > init.currentGroup.length :=
        not_lt.2 (h g (by simp))
      have : selectBestFrom init (g :: t) = selectBestFrom init t := by
        simp [selectBestFrom, hg]
      rw [this]
      exact ih (fun g hg2 => h g (by simp [hg2]))

/-- Total group-count bound: the recursion emits at most one record per
corner. -/
theorem edgeSplit_length_le (normals : List ℝ) (cutOff : ℝ) :
    ∀ (L : List ℕ) (o : Option ℕ),
      (edgeSplit normals L cutOff o).length ≤ L.length := by
  have key : ∀ (n : ℕ) (L : List ℕ), L.length ≤ n → ∀ (o : Option ℕ),
      (edgeSplit normals L cutOff o).length ≤ L.length := by
    intro n
    induction n with
    | zero =>
        intro L hL o
        have : L = [] := List.length_eq_zero.1 (Nat.le_zero.1 hL)
        subst this
        rw [edgeSplit]
        simp
    | succ n ih =>
        intro L hL o
        by_cases hnil : L = []
        · subst hnil
          rw [edgeSplit]
          simp
        · rw [edgeSplit_cons_eq normals L cutOff o hnil]
          have hlt := selectBest_splitGroup_lt normals L cutOff hnil
          have hrec : ∀ (o2 : Option ℕ),
              (edgeSplit normals
                (selectBest (L.map (edgeSplitToGroups normals L cutOff))).splitGroup
                cutOff o2).length ≤
              (selectBest (L.map (edgeSplitToGroups normals L cutOff))).splitGroup.length := by
            intro o2
            exact ih _ (by omega) o2
          have hLpos : 1 ≤ L.length := by
            cases L with
            | nil => exact absurd rfl hnil
            | cons a t => simp
          cases o with
          | none =>
              simp only [List.nil_append]
              by_cases hsp :
                  (selectBest (L.map (edgeSplitToGroups normals L cutOff))).splitGroup = []
              · simp [hsp]
              · rw [if_neg hsp]
                exact le_trans (hrec _) (le_of_lt hlt)
          | some o =>
              by_cases hsp :
                  (selectBest (L.map (edgeSplitToGroups normals L cutOff))).splitGroup = []
              · simp [hsp]
                omega
              · rw [if_neg hsp]
                have := hrec (some (jsOrIdx (some o)
                  ((selectBest (L.map (edgeSplitToGroups normals L cutOff))).currentGroup.headD 0)))
                simp only [List.length_append, List.length_cons, List.length_nil]
                omega
  intro L o
  exact key L.length L (le_refl _) o

/-! ## Pairwise-incompatible corners produce singleton groups -/

theorem edgeSplitToGroups_far (normals : List ℝ) (cutOff : ℝ) (L : List ℕ)
    (s : ℕ) (hs : s ∈ L)
    (hfar : ∀ i ∈ L, ∀ j ∈ L, i ≠ j →
      (normalAt normals i).dot (normalAt normals j) < cutOff) :
    edgeSplitToGroups normals L cutOff s =
      ⟨L.filter (fun j => decide (j ≠ s)), [s]⟩ := by
  rw [edgeSplitToGroups_eq]
  simp only [GroupResult.mk.injEq]
  constructor
  · apply List.filter_congr
    intro j hj
    by_cases hjs : j = s
    · simp [hjs]
    · simp [hjs, hfar j hj s hs hjs]
  · have hnil : L.filter (fun j => decide (j ≠ s) &&
        !decide ((normalAt normals j).dot (normalAt normals s) < cutOff)) = [] := by
      apply List.filter_eq_nil_iff.2
      intro j hj
      by_cases hjs : j = s
      · simp [hjs]
      · simp [hjs, hfar j hj s hs hjs]
    rw [hnil]

theorem edgeSplit_pairwise_far (normals : List ℝ) (cutOff : ℝ) :
    ∀ (L : List ℕ), L.Nodup →
      (∀ i ∈ L, ∀ j ∈ L, i ≠ j →
        (normalAt normals i).dot (normalAt normals j) < cutOff) →
      ∀ (o : Option ℕ),
        (edgeSplit normals L cutOff o).map SplitData.indexes =
          (match o with
           | none => L.tail.map (fun j => [j])
           | some _ => L.map (fun j => [j])) := by
  have key : ∀ (n : ℕ) (L : List ℕ), L.length ≤ n → L.Nodup →
      (∀ i ∈ L, ∀ j ∈ L, i ≠ j →
        (normalAt normals i).dot (normalAt normals j) < cutOff) →
      ∀ (o : Option ℕ),
        (edgeSplit normals L cutOff o).map SplitData.indexes =
          (match o with
           | none => L.tail.map (fun j => [j])
           | some _ => L.map (fun j => [j])) := by
    intro n
    induction n with
    | zero =>
        intro L hL _ _ o
        have : L = [] := List.length_eq_zero.1 (Nat.le_zero.1 hL)
        subst this
        rw [edgeSplit]
        cases o <;> simp
    | succ n ih =>
        intro L hL hnd hfar o
        cases L with
        | nil =>
            rw [edgeSplit]
            cases o <;> simp
        | cons a t =>
            have hmap : (a :: t).map (edgeSplitToGroups normals (a :: t) cutOff) =
                (edgeSplitToGroups normals (a :: t) cutOff a) ::
                  t.map (edgeSplitToGroups normals (a :: t) cutOff) := by
              simp
            have hsel : selectBest ((a :: t).map
                (edgeSplitToGroups normals (a :: t) cutOff)) =
                ⟨(a :: t).filter (fun j => decide (j ≠ a)), [a]⟩ := by
              rw [hmap, selectBest_eq_selectBestFrom]
              rw [edgeSplitToGroups_far normals cutOff (a :: t) a (by simp) hfar]
              apply selectBestFrom_eq_init
              intro g hg
              rcases List.mem_map.1 hg with ⟨s, hsmem, rfl⟩
              rw [edgeSplitToGroups_far normals cutOff (a :: t) s
                (by simp [hsmem]) hfar]
              simp
            have hfiltert : (a :: t).filter (fun j => decide (j ≠ a)) = t := by
              have hanott : a ∉ t := (List.nodup_cons.1 hnd).1
              have h1 : (a :: t).filter (fun j => decide (j ≠ a))
                  = t.filter (fun j => decide (j ≠ a)) := by
                rw [List.filter_cons]
                simp
              have h2 : t.filter (fun j => decide (j ≠ a)) = t := by
                apply List.filter_eq_self.2
                intro j hj
                have : j ≠ a := fun h => hanott (h ▸ hj)
                simp [this]
              rw [h1, h2]
            have hnd2 : t.Nodup := (List.nodup_cons.1 hnd).2
            have hfar2 : ∀ i ∈ t, ∀ j ∈ t, i ≠ j →
                (normalAt normals i).dot (normalAt normals j) < cutOff := by
              intro i hi j hj hij
              exact hfar i (by simp [hi]) j (by simp [hj]) hij
            have hlen2 : t.length ≤ n := by
              simp at hL
              omega
            rw [edgeSplit_cons_eq normals (a :: t) cutOff o (by simp)]
            rw [hsel]
            simp only [hfiltert]
            cases o with
            | none =>
                by_cases ht : t = []
                · subst ht
                  simp
                · rw [if_neg ht]
                  have hih := ih t hlen2 hnd2 hfar2 (some (jsOrIdx none ([a].headD 0)))
                  simp only [List.nil_append]
                  rw [hih]
                  simp
            | some o =>
                by_cases ht : t = []
                · subst ht
                  simp
                · rw [if_neg ht]
                  have hih := ih t hlen2 hnd2 hfar2
                    (some (jsOrIdx (some o) ([a].headD 0)))
                  simp only [List.map_append, List.map_cons, List.map_nil]
                  rw [hih]
                  simp
  intro L hnd hfar o
  exact key L.length L (le_refl _) hnd hfar o

/-! ## Structure of the records pushed into `splitIndexes` -/

theorem jsOrIdx_cases (o : Option ℕ) (d : ℕ) :
    jsOrIdx o d = d ∨ ∃ k, o = some k ∧ jsOrIdx o d = k := by
  match o with
  | none => exact Or.inl rfl
  | some 0 => exact Or.inl rfl
  | some (k + 1) => exact Or.inr ⟨k + 1, rfl, rfl⟩

theorem currentGroup_mem_cases (normals : List ℝ) (L : List ℕ) (cutOff : ℝ)
    (s : ℕ) :
    ∀ x ∈ (edgeSplitToGroups normals L cutOff s).currentGroup,
      x = s ∨ x ∈ L := by
  rw [edgeSplitToGroups_eq]
  intro x hx
  rcases List.mem_cons.1 hx with h | h
  · exact Or.inl h
  · exact Or.inr (List.mem_of_mem_filter h)

theorem splitGroup_subset (normals : List ℝ) (L : List ℕ) (cutOff : ℝ)
    (s : ℕ) :
    ∀ x ∈ (edgeSplitToGroups normals L cutOff s).splitGroup, x ∈ L := by
  rw [edgeSplitToGroups_eq]
  intro x hx
  exact List.mem_of_mem_filter hx

theorem currentGroup_headD (normals : List ℝ) (L : List ℕ) (cutOff : ℝ)
    (s : ℕ) :
    (edgeSplitToGroups normals L cutOff s).currentGroup.headD 0 = s := by
  rw [edgeSplitToGroups_eq]
  simp

theorem currentGroup_disjoint_splitGroup (normals : List ℝ) (L : List ℕ)
    (cutOff : ℝ) (s : ℕ) :
    ∀ x ∈ (edgeSplitToGroups normals L cutOff s).currentGroup,
      x ∉ (edgeSplitToGroups normals L cutOff s).splitGroup := by
  rw [edgeSplitToGroups_eq]
  intro x hx hxs
  have hs := List.of_mem_filter hxs
  simp only [Bool.and_eq_true, decide_eq_true_eq] at hs
  rcases List.mem_cons.1 hx with h | h
  · exact hs.1 (by rw [h])
  · have hc := List.of_mem_filter h
    simp only [Bool.and_eq_true, decide_eq_true_eq, Bool.not_eq_eq_eq_not,
      Bool.not_true, decide_eq_false_iff_not] at hc
    exact hc.2 hs.2

/-- Every record of a run has a non-empty group drawn from the corner list,
and its `original` also lies in the corner list unless it is the `original`
passed into the call. -/
theorem edgeSplit_records (normals : List ℝ) (cutOff : ℝ) (P : ℕ → Prop) :
    ∀ (L : List ℕ) (o : Option ℕ), (∀ x ∈ L, P x) →
      (∀ k, o = some k → P k) →
      ∀ sd ∈ edgeSplit normals L cutOff o,
        P sd.original ∧ sd.indexes ≠ [] ∧ ∀ s ∈ sd.indexes, P s := by
  have key : ∀ (n : ℕ) (L : List ℕ), L.length ≤ n → ∀ (o : Option ℕ),
      (∀ x ∈ L, P x) → (∀ k, o = some k → P k) →
      ∀ sd ∈ edgeSplit normals L cutOff o,
        P sd.original ∧ sd.indexes ≠ [] ∧ ∀ s ∈ sd.indexes, P s := by
    intro n
    induction n with
    | zero =>
        intro L hL o _ _ sd hsd
        have : L = [] := List.length_eq_zero.1 (Nat.le_zero.1 hL)
        subst this
        rw [edgeSplit] at hsd
        simp at hsd
    | succ n ih =>
        intro L hL o hPL hPo sd hsd
        by_cases hnil : L = []
        · subst hnil
          rw [edgeSplit] at hsd
          simp at hsd
        · rw [edgeSplit_cons_eq normals L cutOff o hnil] at hsd
          obtain ⟨s0, hs0, hbest⟩ := List.mem_map.1
            (selectBest_mem (L.map (edgeSplitToGroups normals L cutOff))
              (by simpa using hnil))
          rcases List.mem_append.1 hsd with hp | hr
          · cases o with
            | none => simp at hp
            | some k =>
                simp only [List.mem_singleton] at hp
                subst hp
                refine ⟨hPo k rfl, ?_, ?_⟩
                · rw [← hbest, edgeSplitToGroups_eq]
                  simp
                · intro s hsmem
                  rw [← hbest] at hsmem
                  rcases currentGroup_mem_cases normals L cutOff s0 s hsmem with
                    h | h
                  · rw [h]; exact hPL s0 hs0
                  · exact hPL s h
          · by_cases hsp :
                (selectBest (L.map (edgeSplitToGroups normals L cutOff))).splitGroup = []
            · rw [hsp] at hr
              simp at hr
            · rw [if_neg hsp] at hr
              have hsub : ∀ x ∈
                  (selectBest (L.map (edgeSplitToGroups normals L cutOff))).splitGroup,
                  P x := by
                intro x hx
                rw [← hbest] at hx
                exact hPL x (splitGroup_subset normals L cutOff s0 x hx)
              have hlen2 :
                  (selectBest (L.map (edgeSplitToGroups normals L cutOff))).splitGroup.length ≤ n := by
                have := selectBest_splitGroup_lt normals L cutOff hnil
                omega
              apply ih _ hlen2 _ hsub ?_ sd hr
              intro k hk
              have hkeq : jsOrIdx o
                  ((selectBest (L.map (edgeSplitToGroups normals L cutOff))).currentGroup.headD 0)
                  = k := by
                injection hk
              rcases jsOrIdx_cases o
                ((selectBest (L.map (edgeSplitToGroups normals L cutOff))).currentGroup.headD 0)
                with hcase | ⟨k2, ho, hcase⟩
              · rw [← hkeq, hcase, ← hbest,
                  currentGroup_headD normals L cutOff s0]
                exact hPL s0 hs0
              · rw [← hkeq, hcase]
                exact hPo k2 ho
  intro L o hPL hPo sd hsd
  exact key L.length L (le_refl _) o hPL hPo sd hsd

theorem edgeSplit_indexes_subset (normals : List ℝ) (cutOff : ℝ) :
    ∀ (L : List ℕ) (o : Option ℕ), ∀ sd ∈ edgeSplit normals L cutOff o,
      ∀ s ∈ sd.indexes, s ∈ L := by
  have key : ∀ (n : ℕ) (L : List ℕ), L.length ≤ n → ∀ (o : Option ℕ),
      ∀ sd ∈ edgeSplit normals L cutOff o, ∀ s ∈ sd.indexes, s ∈ L := by
    intro n
    induction n with
    | zero =>
        intro L hL o sd hsd
        have : L = [] := List.length_eq_zero.1 (Nat.le_zero.1 hL)
        subst this
        rw [edgeSplit] at hsd
        simp at hsd
    | succ n ih =>
        intro L hL o sd hsd
        by_cases hnil : L = []
        · subst hnil
          rw [edgeSplit] at hsd
          simp at hsd
        · rw [edgeSplit_cons_eq normals L cutOff o hnil] at hsd
          obtain ⟨s0, hs0, hbest⟩ := List.mem_map.1
            (selectBest_mem (L.map (edgeSplitToGroups normals L cutOff))
              (by simpa using hnil))
          rcases List.mem_append.1 hsd with hp | hr
          · cases o with
            | none => simp at hp
            | some k =>
                simp only [List.mem_singleton] at hp
                subst hp
                intro s hsmem
                rw [← hbest] at hsmem
                rcases currentGroup_mem_cases normals L cutOff s0 s hsmem with
                  h | h
                · rw [h]; exact hs0
                · exact h
          · by_cases hsp :
                (selectBest (L.map (edgeSplitToGroups normals L cutOff))).splitGroup = []
            · rw [hsp] at hr
              simp at hr
            · rw [if_neg hsp] at hr
              have hlen2 :
                  (selectBest (L.map (edgeSplitToGroups normals L cutOff))).splitGroup.length ≤ n := by
                have := selectBest_splitGroup_lt normals L cutOff hnil
                omega
              intro s hsmem
              have := ih _ hlen2 _ sd hr s hsmem
              rw [← hbest] at this
              exact splitGroup_subset normals L cutOff s0 s this
  intro L o sd hsd
  exact key L.length L (le_refl _) o sd hsd

theorem edgeSplit_pairwise_disjoint (normals : List ℝ) (cutOff : ℝ) :
    ∀ (L : List ℕ) (o : Option ℕ),
      List.Pairwise (fun a b => ∀ s ∈ a.indexes, s ∉ b.indexes)
        (edgeSplit normals L cutOff o) := by
  have key : ∀ (n : ℕ) (L : List ℕ), L.length ≤ n → ∀ (o : Option ℕ),
      List.Pairwise (fun a b => ∀ s ∈ a.indexes, s ∉ b.indexes)
        (edgeSplit normals L cutOff o) := by
    intro n
    induction n with
    | zero =>
        intro L hL o
        have : L = [] := List.length_eq_zero.1 (Nat.le_zero.1 hL)
        subst this
        rw [edgeSplit]
        simp
    | succ n ih =>
        intro L hL o
        by_cases hnil : L = []
        · subst hnil
          rw [edgeSplit]
          simp
        · rw [edgeSplit_cons_eq normals L cutOff o hnil]
          obtain ⟨s0, hs0, hbest⟩ := List.mem_map.1
            (selectBest_mem (L.map (edgeSplitToGroups normals L cutOff))
              (by simpa using hnil))
          apply List.pairwise_append.2
          refine ⟨?_, ?_, ?_⟩
          · cases o <;> simp
          · by_cases hsp :
                (selectBest (L.map (edgeSplitToGroups normals L cutOff))).splitGroup = []
            · rw [hsp]; simp
            · rw [if_neg hsp]
              have hlen2 :
                  (selectBest (L.map (edgeSplitToGroups normals L cutOff))).splitGroup.length ≤ n := by
                have := selectBest_splitGroup_lt normals L cutOff hnil
                omega
              exact ih _ hlen2 _
          · intro a ha b hb s hsa
            cases o with
            | none => simp at ha
            | some k =>
                simp only [List.mem_singleton] at ha
                subst ha
                by_cases hsp :
                    (selectBest (L.map (edgeSplitToGroups normals L cutOff))).splitGroup = []
                · rw [hsp] at hb
                  simp at hb
                · rw [if_neg hsp] at hb
                  intro hsb
                  have hsubB := edgeSplit_indexes_subset normals cutOff _ _ b hb
                    s hsb
                  rw [← hbest] at hsa hsubB
                  exact currentGroup_disjoint_splitGroup normals L cutOff s0 s
                    hsa hsubB
  intro L o
  exact key L.length L (le_refl _) o

/-! ## Normalised dot products are bounded below by -1 -/

theorem Vec3.dot_self_nonneg (v : Vec3) : 0 ≤ v.dot v := by
  have := sq_nonneg v.x
  have := sq_nonneg v.y
  have := sq_nonneg v.z
  simp only [Vec3.dot]
  nlinarith

/-- Lagrange identity gives the Cauchy-Schwarz inequality in ℝ³. -/
theorem Vec3.dot_sq_le (a b : Vec3) :
    (a.dot b) ^ 2 ≤ (a.dot a) * (b.dot b) := by
  simp only [Vec3.dot]
  nlinarith [sq_nonneg (a.x * b.y - a.y * b.x), sq_nonneg (a.y * b.z - a.z * b.y),
    sq_nonneg (a.z * b.x - a.x * b.z)]

theorem Vec3.normalize_dot_self_le_one (a : Vec3) :
    (a.normalize).dot (a.normalize) ≤ 1 := by
  have hS : 0 ≤ a.x * a.x + a.y * a.y + a.z * a.z := by
    nlinarith [sq_nonneg a.x, sq_nonneg a.y, sq_nonneg a.z]
  by_cases h : a.len = 0
  · have hS0 : a.x * a.x + a.y * a.y + a.z * a.z = 0 := by
      have h2 := h
      rw [Vec3.len] at h2
      exact (Real.sqrt_eq_zero hS).1 h2
    simp only [Vec3.normalize, Vec3.dot, h, if_pos]
    norm_num
    nlinarith
  · have hd : a.len * a.len = a.x * a.x + a.y * a.y + a.z * a.z := by
      rw [Vec3.len]
      exact Real.mul_self_sqrt hS
    simp only [Vec3.normalize, Vec3.dot, if_neg h]
    have hne : a.len ≠ 0 := h
    rw [div_mul_div_comm, div_mul_div_comm, div_mul_div_comm,
      div_add_div_same, div_add_div_same, hd]
    exact div_self_le_one _

theorem Vec3.neg_one_le_dot_of_le_one (u v : Vec3) (hu : u.dot u ≤ 1)
    (hv : v.dot v ≤ 1) : -1 ≤ u.dot v := by
  have h1 := Vec3.dot_self_nonneg u
  have h2 := Vec3.dot_self_nonneg v
  have hcs := Vec3.dot_sq_le u v
  nlinarith [sq_nonneg (u.dot v + 1)]

theorem normalAt_dot_ge_neg_one (normals : List ℝ) (i j : ℕ) :
    -1 ≤ (normalAt normals i).dot (normalAt normals j) := by
  apply Vec3.neg_one_le_dot_of_le_one
  · exact Vec3.normalize_dot_self_le_one _
  · exact Vec3.normalize_dot_self_le_one _

/-- With a cutoff below -1 (as produced by `cutOffAngle = π`), no corner is
ever moved to the split group, so the recursion stops after the first level
and, on the top-level call (`original = null`), records nothing. -/
theorem edgeSplit_generous (normals : List ℝ) (cutOff : ℝ) (hc : cutOff < -1)
    (L : List ℕ) : edgeSplit normals L cutOff none = [] := by
  by_cases hnil : L = []
  · subst hnil
    rw [edgeSplit]
    simp
  · rw [edgeSplit_cons_eq normals L cutOff none hnil]
    have hsplit : ∀ s ∈ L, (edgeSplitToGroups normals L cutOff s).splitGroup = [] := by
      intro s _
      rw [edgeSplitToGroups_eq]
      apply List.filter_eq_nil_iff.2
      intro j _
      have hb := normalAt_dot_ge_neg_one normals j s
      simp only [Bool.and_eq_true, decide_eq_true_eq, not_and]
      intro _
      linarith
    obtain ⟨s, hsmem, hbest⟩ := List.mem_map.1
      (selectBest_mem (L.map (edgeSplitToGroups normals L cutOff))
        (by simpa using hnil))
    rw [← hbest, hsplit s hsmem]
    simp

/-! ## Characterisation of the Corner Index -/

/-- The ordered list of (absolute) slot positions in `rest` that reference
vertex `v`, when `rest` starts at slot position `slot`. -/
def cornersFrom : ℕ → List ℕ → ℕ → List ℕ
  | _, [], _ => []
  | slot, i :: rest, v =>
      (if i = v then [slot] else []) ++ cornersFrom (slot + 1) rest v

theorem cornersFrom_mem (v : ℕ) :
    ∀ (rest : List ℕ) (slot : ℕ), ∀ s ∈ cornersFrom slot rest v,
      slot ≤ s ∧ s < slot + rest.length ∧ rest.getD (s - slot) 0 = v := by
  intro rest
  induction rest with
  | nil => intro slot s hs; simp [cornersFrom] at hs
  | cons i rest ih =>
      intro slot s hs
      rw [cornersFrom] at hs
      rcases List.mem_append.1 hs with h | h
      · by_cases hiv : i = v
        · simp [hiv] at h
          subst h
          refine ⟨le_refl _, by simp, ?_⟩
          simp [hiv]
        · simp [hiv] at h
      · obtain ⟨h1, h2, h3⟩ := ih (slot + 1) s h
        refine ⟨by omega, by simp; omega, ?_⟩
        have hss : s - slot = (s - (slot + 1)) + 1 := by omega
        rw [hss]
        simpa using h3

theorem cornersFrom_ne_nil_iff (v : ℕ) :
    ∀ (rest : List ℕ) (slot : ℕ), cornersFrom slot rest v ≠ [] ↔ v ∈ rest := by
  intro rest
  induction rest with
  | nil => intro slot; simp [cornersFrom]
  | cons i rest ih =>
      intro slot
      rw [cornersFrom]
      by_cases hiv : i = v
      · simp [hiv]
      · simp only [hiv, if_neg, Bool.false_eq_true]
        simp [ih (slot + 1), hiv, Ne.symm hiv]

theorem jsArraySet_length_of_lt {α : Type} (a : List (Option α)) (i : ℕ)
    (x : α) (h : i < a.length) : (jsArraySet a i x).length = a.length := by
  simp [jsArraySet, h]

theorem jsArraySet_getD_eq {α : Type} (a : List (Option α)) (i : ℕ) (x : α)
    (h : i < a.length) : (jsArraySet a i x).getD i none = some x := by
  simp [jsArraySet, h, List.getD_eq_getElem?_getD, List.getElem?_set_self]

theorem jsArraySet_getD_ne {α : Type} (a : List (Option α)) (i k : ℕ) (x : α)
    (h : i < a.length) (hik : i ≠ k) :
    (jsArraySet a i x).getD k none = a.getD k none := by
  simp [jsArraySet, h, List.getD_eq_getElem?_getD, List.getElem?_set_ne hik]

theorem mptiGo_length (rest : List ℕ) :
    ∀ (m : List (Option (List ℕ))) (slot : ℕ),
      (∀ x ∈ rest, x < m.length) →
      (mptiGo m slot rest).length = m.length := by
  induction rest with
  | nil => intro m slot _; rw [mptiGo]
  | cons i rest ih =>
      intro m slot hR
      rw [mptiGo]
      have hi : i < m.length := hR i (by simp)
      rw [ih _ (slot + 1) ?_, jsArraySet_length_of_lt _ _ _ hi]
      intro x hx
      rw [jsArraySet_length_of_lt _ _ _ hi]
      exact hR x (by simp [hx])

theorem mptiGo_getD (rest : List ℕ) :
    ∀ (m : List (Option (List ℕ))) (slot v : ℕ), v < m.length →
      (∀ x ∈ rest, x < m.length) →
      (mptiGo m slot rest).getD v none =
        (if cornersFrom slot rest v = [] then m.getD v none
         else some ((m.getD v none).getD [] ++ cornersFrom slot rest v)) := by
  induction rest with
  | nil =>
      intro m slot v _ _
      rw [mptiGo, cornersFrom]
      simp
  | cons i rest ih =>
      intro m slot v hv hR
      rw [mptiGo, cornersFrom]
      have hi : i < m.length := hR i (by simp)
      have hlen : (jsArraySet m i (((m.getD i none).getD []) ++ [slot])).length
          = m.length := jsArraySet_length_of_lt _ _ _ hi
      have hR2 : ∀ x ∈ rest,
          x < (jsArraySet m i (((m.getD i none).getD []) ++ [slot])).length := by
        intro x hx
        rw [hlen]
        exact hR x (by simp [hx])
      rw [ih _ (slot + 1) v (by rw [hlen]; exact hv) hR2]
      by_cases hiv : i = v
      · subst hiv
        rw [jsArraySet_getD_eq _ _ _ hi]
        simp only [if_pos rfl]
        by_cases hcf : cornersFrom (slot + 1) rest i = []
        · rw [if_pos hcf, if_neg (by simp)]
          simp [hcf]
        · rw [if_neg hcf, if_neg (by simp [hcf])]
          simp
      · rw [jsArraySet_getD_ne _ _ _ _ hi hiv]
        simp [hiv]

theorem mapPositionsToIndexes_length (ib : List ℕ) (n : ℕ)
    (hR : ∀ x ∈ ib, x < n) : (mapPositionsToIndexes ib n).length = n := by
  rw [mapPositionsToIndexes, mptiGo_length]
  · simp
  · simpa using hR

theorem mapPositionsToIndexes_getD (ib : List ℕ) (n : ℕ) (v : ℕ) (hv : v < n)
    (hR : ∀ x ∈ ib, x < n) :
    (mapPositionsToIndexes ib n).getD v none =
      (if cornersFrom 0 ib v = [] then none
       else some (cornersFrom 0 ib v)) := by
  rw [mapPositionsToIndexes, mptiGo_getD ib _ 0 v (by simpa using hv)
    (by simpa using hR)]
  have hrep : (List.replicate n (none : Option (List ℕ))).getD v none = none := by
    simp [List.getD_eq_getElem?_getD, List.getElem?_replicate, hv]
  rw [hrep]
  by_cases h : cornersFrom 0 ib v = []
  · simp [h]
  · simp [h]

theorem sequenceOptions_map_some {α : Type} (l : List α) :
    sequenceOptions (l.map some) = some l := by
  induction l with
  | nil => simp [sequenceOptions]
  | cons a t ih => simp [sequenceOptions, ih]

theorem mapPositionsToIndexes_eq_map (ib : List ℕ) (n : ℕ)
    (hR : ∀ x ∈ ib, x < n) (hRef : ∀ v < n, v ∈ ib) :
    mapPositionsToIndexes ib n =
      (List.range n).map (fun v => some (cornersFrom 0 ib v)) := by
  apply List.ext_getElem
  · rw [mapPositionsToIndexes_length ib n hR]
    simp
  · intro k h1 h2
    have hk : k < n := by
      rw [mapPositionsToIndexes_length ib n hR] at h1
      exact h1
    have hgd := mapPositionsToIndexes_getD ib n k hk hR
    rw [if_neg ((cornersFrom_ne_nil_iff k ib 0).2 (hRef k hk))] at hgd
    have hL : (mapPositionsToIndexes ib n).getD k none
        = (mapPositionsToIndexes ib n)[k] := by
      rw [List.getD_eq_getElem?_getD, List.getElem?_eq_getElem h1]
      simp
    rw [hL] at hgd
    rw [hgd]
    simp

/-! ## Mesh data model (`BufferGeometry` / `BufferAttribute`) -/

structure BufferAttributeE where
  itemSize : ℕ
  array : List ℝ
  normalized : Bool

/-- A `BufferGeometry`: optional index buffer plus a name-keyed dictionary of
attributes (JS object keys preserve insertion order, modelled as an
association list).  `isGeometry` flags the legacy `THREE.Geometry`
representation that the modifier refuses to process. -/
structure MeshE where
  isGeometry : Bool
  index : Option (List ℕ)
  attributes : List (String × BufferAttributeE)

def MeshE.getAttribute (m : MeshE) (name : String) : Option BufferAttributeE :=
  m.attributes.lookup name

def MeshE.deleteAttribute (m : MeshE) (name : String) : MeshE :=
  { m with attributes := m.attributes.filter (fun p => p.1 ≠ name) }

/-- three.js `setAttribute`: overwrite the entry when present, append it
otherwise. -/
def MeshE.setAttribute (m : MeshE) (name : String) (a : BufferAttributeE) :
    MeshE :=
  if (m.attributes.lookup name).isSome then
    { m with attributes :=
        m.attributes.map (fun p => if p.1 = name then (p.1, a) else p) }
  else
    { m with attributes := m.attributes ++ [(name, a)] }

/-- How a call can fail (all modelled as `Except.error`):
* `legacyGeometry` — `geometry.isGeometry === true`: the modifier prints a
  console error and returns `undefined` instead of a mesh;
* `missingUtils` — `throw 'THREE.EdgeSplitModifier relies on BufferGeometryUtils'`;
* `typeError` — an implicit JS `TypeError`/`RangeError` (reading a property
  of `undefined`/`null`, or `TypedArray.set` with an oversized source). -/
inductive ModifyError where
  | legacyGeometry : ModifyError
  | missingUtils : ModifyError
  | typeError : ModifyError
deriving DecidableEq

/-- Lines 178-186: a non-indexed geometry must be merged to indexed form by
the `BufferGeometryUtils.mergeVertices` collaborator; without the
collaborator the call throws. -/
def mergeStep (utils : Option (MeshE → MeshE)) (g : MeshE) :
    Except ModifyError MeshE :=
  if g.index = none then
    match utils with
    | none => Except.error ModifyError.missingUtils
    | some mergeVertices => Except.ok (mergeVertices g)
  else Except.ok g

/-- Lines 214-221: for every attribute allocate a typed array of
`new_nb_indices * itemSize` entries (zero filled) and copy the old array into
its front; `TypedArray.set` throws a `RangeError` when the source is longer
than the target. -/
def buildNewAttributes (new_nb : ℕ) :
    List (String × BufferAttributeE) →
      Except ModifyError (List (String × BufferAttributeE))
  | [] => Except.ok []
  | (name, a) :: rest =>
      if a.array.length ≤ new_nb * a.itemSize then
        match buildNewAttributes new_nb rest with
        | Except.ok tail =>
            Except.ok ((name,
              ⟨a.itemSize,
               a.array ++ List.replicate (new_nb * a.itemSize - a.array.length) 0,
               a.normalized⟩) :: tail)
        | Except.error e => Except.error e
      else Except.error ModifyError.typeError

/-- Lines 230-239: copy the `itemSize` components of vertex `src` into the
new vertex slot `old_nb + i`, reading and writing the same (new) array. -/
def copyAttrForSplit (old_nb i src : ℕ) (a : BufferAttributeE) :
    BufferAttributeE :=
  { a with array :=
      ((List.range a.itemSize).foldl
        (fun arr j =>
          arr.set ((old_nb + i) * a.itemSize + j)
            (arr.getD (src * a.itemSize + j) 0))
        a.array) }

/-- Lines 225-247: the loop over `splitIndexes` with loop counter `i`; each
split copies its original vertex's attribute values into the appended slot
`old_nb + i` and redirects every corner of its group to that slot. -/
def applySplitsGo (indexes : List ℕ) (old_nb : ℕ) :
    ℕ → List (String × BufferAttributeE) × List ℕ → List SplitData →
      List (String × BufferAttributeE) × List ℕ
  | _, st, [] => st
  | i, st, split :: rest =>
      applySplitsGo indexes old_nb (i + 1)
        (st.1.map (fun q => (q.1,
           copyAttrForSplit old_nb i (indexes.getD split.original 0) q.2)),
         split.indexes.foldl (fun ni j => ni.set j (old_nb + i)) st.2) rest

def applySplits (indexes : List ℕ) (old_nb : ℕ)
    (attrs : List (String × BufferAttributeE)) (newIndexes0 : List ℕ)
    (splits : List SplitData) : List (String × BufferAttributeE) × List ℕ :=
  applySplitsGo indexes old_nb 0 (attrs, newIndexes0) splits

/-! ## Elementary lemmas about list stores -/

theorem getD_set_eq {α : Type} [Inhabited α] (l : List α) (i : ℕ) (x d : α)
    (h : i < l.length) : (l.set i x).getD i d = x := by
  simp [List.getD_eq_getElem?_getD, List.getElem?_set_self, h]

theorem getD_set_ne {α : Type} [Inhabited α] (l : List α) (i k : ℕ) (x d : α)
    (h : i ≠ k) : (l.set i x).getD k d = l.getD k d := by
  simp [List.getD_eq_getElem?_getD, List.getElem?_set_ne h]

theorem foldl_set_length (js : List ℕ) (w : ℕ) :
    ∀ (ni : List ℕ), (js.foldl (fun a j => a.set j w) ni).length = ni.length := by
  induction js with
  | nil => intro ni; simp
  | cons j js ih => intro ni; rw [List.foldl_cons, ih]; simp

theorem foldl_set_getD (js : List ℕ) (w : ℕ) :
    ∀ (ni : List ℕ) (s : ℕ),
      (js.foldl (fun a j => a.set j w) ni).getD s 0 =
        if s ∈ js ∧ s < ni.length then w else ni.getD s 0 := by
  induction js with
  | nil => intro ni s; simp
  | cons j js ih =>
      intro ni s
      rw [List.foldl_cons, ih]
      by_cases hmem : s ∈ js
      · by_cases hlen : s < ni.length
        · rw [if_pos ⟨hmem, by simpa using hlen⟩, if_pos ⟨by simp [hmem], hlen⟩]
        · rw [if_neg (fun hc => hlen (by simpa using hc.2)),
            if_neg (fun hc => hlen hc.2)]
          by_cases hj : j = s
          · subst hj
            rw [List.set_eq_of_length_le (Nat.not_lt.1 hlen)]
          · exact getD_set_ne ni j s w 0 hj
      · rw [if_neg (fun hc => hmem hc.1)]
        by_cases hj : j = s
        · subst hj
          by_cases hlen : j < ni.length
          · rw [getD_set_eq ni j w 0 hlen, if_pos ⟨by simp, hlen⟩]
          · rw [List.set_eq_of_length_le (Nat.not_lt.1 hlen),
              if_neg (fun hc => hlen hc.2)]
        · rw [getD_set_ne ni j s w 0 hj,
            if_neg (fun hc =>
              (List.mem_cons.1 hc.1).elim (fun h => hj h.symm) hmem)]

/-- The inner copy loop of `copyAttrForSplit`: writes land at `base + j`
for `j ∈ js`, so everything below `base` is untouched. -/
theorem copyfold_getD_lt (base srcb : ℕ) (js : List ℕ) :
    ∀ (arr : List ℝ) (k : ℕ), k < base →
      ((js.foldl (fun a j => a.set (base + j) (a.getD (srcb + j) 0)) arr)).getD k 0
        = arr.getD k 0 := by
  induction js with
  | nil => intro arr k _; simp
  | cons j js ih =>
      intro arr k hk
      rw [List.foldl_cons, ih _ k hk]
      exact getD_set_ne _ _ _ _ _ (by omega)

theorem copyfold_length (base srcb : ℕ) (js : List ℕ) :
    ∀ (arr : List ℝ),
      ((js.foldl (fun a j => a.set (base + j) (a.getD (srcb + j) 0)) arr)).length
        = arr.length := by
  induction js with
  | nil => intro arr; simp
  | cons j js ih => intro arr; rw [List.foldl_cons, ih]; simp

theorem copyfold_getD_untouched (base srcb : ℕ) (js : List ℕ) :
    ∀ (arr : List ℝ) (k : ℕ), (∀ j ∈ js, base + j ≠ k) →
      ((js.foldl (fun a j => a.set (base + j) (a.getD (srcb + j) 0)) arr)).getD k 0
        = arr.getD k 0 := by
  induction js with
  | nil => intro arr k _; simp
  | cons j js ih =>
      intro arr k hk
      rw [List.foldl_cons, ih _ k (fun j2 hj2 => hk j2 (by simp [hj2]))]
      exact getD_set_ne _ _ _ _ _ (hk j (by simp))

theorem copyfold_getD_mem (base srcb : ℕ) (_hsb : srcb < base) (js : List ℕ) :
    ∀ (arr : List ℝ) (j : ℕ), j ∈ js → js.Nodup →
      (∀ j2 ∈ js, srcb + j2 < base) → base + j < arr.length →
      ((js.foldl (fun a j2 => a.set (base + j2) (a.getD (srcb + j2) 0)) arr)).getD (base + j) 0
        = arr.getD (srcb + j) 0 := by
  induction js with
  | nil => intro arr j h; simp at h
  | cons j2 js ih =>
      intro arr j hj hnd hsrc hbound
      rw [List.foldl_cons]
      rcases List.mem_cons.1 hj with h | h
      · subst h
        have hnotin : j ∉ js := (List.nodup_cons.1 hnd).1
        rw [copyfold_getD_untouched base srcb js _ (base + j) ?_]
        · rw [getD_set_eq _ _ _ _ hbound]
        · intro j3 hj3 hcontr
          have : j3 = j := by omega
          exact hnotin (this ▸ hj3)
      · rw [ih _ j h (List.nodup_cons.1 hnd).2
          (fun j3 hj3 => hsrc j3 (by simp [hj3])) (by simpa using hbound)]
        exact getD_set_ne _ _ _ _ _ (by
          have h4 := hsrc j (by simp [h])
          omega)

/-! ## Characterisation of the topology rebuild (`applySplits`) -/

theorem copyAttrForSplit_itemSize (old_nb i src : ℕ) (a : BufferAttributeE) :
    (copyAttrForSplit old_nb i src a).itemSize = a.itemSize := rfl

theorem copyAttrForSplit_normalized (old_nb i src : ℕ) (a : BufferAttributeE) :
    (copyAttrForSplit old_nb i src a).normalized = a.normalized := rfl

theorem copyAttrForSplit_array_eq (old_nb i src : ℕ) (a : BufferAttributeE) :
    (copyAttrForSplit old_nb i src a).array =
      (List.range a.itemSize).foldl
        (fun arr j => arr.set ((old_nb + i) * a.itemSize + j)
          (arr.getD (src * a.itemSize + j) 0)) a.array := rfl

theorem copyAttrForSplit_length (old_nb i src : ℕ) (a : BufferAttributeE) :
    (copyAttrForSplit old_nb i src a).array.length = a.array.length := by
  rw [copyAttrForSplit_array_eq]
  exact copyfold_length ((old_nb + i) * a.itemSize) (src * a.itemSize)
    (List.range a.itemSize) a.array

theorem copyAttrForSplit_getD_lt (old_nb i src : ℕ) (a : BufferAttributeE)
    (k : ℕ) (hk : k < (old_nb + i) * a.itemSize) :
    (copyAttrForSplit old_nb i src a).array.getD k 0 = a.array.getD k 0 := by
  rw [copyAttrForSplit_array_eq]
  exact copyfold_getD_lt ((old_nb + i) * a.itemSize) (src * a.itemSize)
    (List.range a.itemSize) a.array k hk

theorem copyAttrForSplit_getD_ge (old_nb i src : ℕ) (a : BufferAttributeE)
    (k : ℕ) (hk : ∀ j < a.itemSize, (old_nb + i) * a.itemSize + j ≠ k) :
    (copyAttrForSplit old_nb i src a).array.getD k 0 = a.array.getD k 0 := by
  rw [copyAttrForSplit_array_eq]
  apply copyfold_getD_untouched
  intro j hj
  exact hk j (List.mem_range.1 hj)

theorem copyAttrForSplit_getD_new (old_nb i src : ℕ) (a : BufferAttributeE)
    (j : ℕ) (hj : j < a.itemSize) (hsrc : src < old_nb)
    (hbound : (old_nb + i) * a.itemSize + j < a.array.length) :
    (copyAttrForSplit old_nb i src a).array.getD ((old_nb + i) * a.itemSize + j) 0
      = a.array.getD (src * a.itemSize + j) 0 := by
  have h1 : src * a.itemSize + a.itemSize ≤ old_nb * a.itemSize := by
    have h0 : (src + 1) * a.itemSize ≤ old_nb * a.itemSize :=
      Nat.mul_le_mul_right _ (by omega)
    rw [Nat.succ_mul] at h0
    exact h0
  have h2 : old_nb * a.itemSize ≤ (old_nb + i) * a.itemSize :=
    Nat.mul_le_mul_right _ (by omega)
  have hsb : src * a.itemSize < (old_nb + i) * a.itemSize := by omega
  rw [copyAttrForSplit_array_eq]
  exact copyfold_getD_mem ((old_nb + i) * a.itemSize) (src * a.itemSize) hsb
    (List.range a.itemSize) a.array j (List.mem_range.2 hj)
    (List.nodup_range _)
    (fun j2 hj2 => by
      have hj2b := List.mem_range.1 hj2
      omega)
    hbound

/-- The attribute transformation accumulated over the splits, starting at
loop counter `i`. -/
def attrFold (indexes : List ℕ) (old_nb : ℕ) :
    ℕ → List SplitData → BufferAttributeE → BufferAttributeE
  | _, [], a => a
  | i, sd :: rest, a =>
      attrFold indexes old_nb (i + 1) rest
        (copyAttrForSplit old_nb i (indexes.getD sd.original 0) a)

theorem applySplitsGo_fst (indexes : List ℕ) (old_nb : ℕ) :
    ∀ (sds : List SplitData) (i : ℕ)
      (attrs : List (String × BufferAttributeE)) (ni : List ℕ),
      (applySplitsGo indexes old_nb i (attrs, ni) sds).1 =
        attrs.map (fun q => (q.1, attrFold indexes old_nb i sds q.2)) := by
  intro sds
  induction sds with
  | nil =>
      intro i attrs ni
      rw [applySplitsGo]
      simp only [attrFold]
      exact (List.map_id attrs).symm
  | cons sd rest ih =>
      intro i attrs ni
      rw [applySplitsGo]
      rw [ih (i + 1)]
      rw [List.map_map]
      apply List.map_congr_left
      intro q _
      simp [attrFold, Function.comp]

theorem applySplitsGo_snd_length (indexes : List ℕ) (old_nb : ℕ) :
    ∀ (sds : List SplitData) (i : ℕ)
      (attrs : List (String × BufferAttributeE)) (ni : List ℕ),
      (applySplitsGo indexes old_nb i (attrs, ni) sds).2.length = ni.length := by
  intro sds
  induction sds with
  | nil => intro i attrs ni; rw [applySplitsGo]
  | cons sd rest ih =>
      intro i attrs ni
      rw [applySplitsGo, ih]
      exact foldl_set_length _ _ _

theorem applySplitsGo_snd_getD_untouched (indexes : List ℕ) (old_nb : ℕ) :
    ∀ (sds : List SplitData) (i : ℕ)
      (attrs : List (String × BufferAttributeE)) (ni : List ℕ) (s : ℕ),
      (∀ sd ∈ sds, s ∉ sd.indexes) →
      (applySplitsGo indexes old_nb i (attrs, ni) sds).2.getD s 0
        = ni.getD s 0 := by
  intro sds
  induction sds with
  | nil => intro i attrs ni s _; rw [applySplitsGo]
  | cons sd rest ih =>
      intro i attrs ni s hs
      rw [applySplitsGo, ih _ _ _ s (fun sd2 h2 => hs sd2 (by simp [h2]))]
      rw [foldl_set_getD]
      rw [if_neg (by
        intro hcontr
        exact absurd hcontr.1 (hs sd (by simp)))]

theorem applySplitsGo_snd_getD_mem (indexes : List ℕ) (old_nb : ℕ) :
    ∀ (sds : List SplitData) (i : ℕ)
      (attrs : List (String × BufferAttributeE)) (ni : List ℕ) (s k : ℕ)
      (sd : SplitData),
      sds[k]? = some sd → s ∈ sd.indexes →
      (∀ k2 sd2, k2 ≠ k → sds[k2]? = some sd2 → s ∉ sd2.indexes) →
      s < ni.length →
      (applySplitsGo indexes old_nb i (attrs, ni) sds).2.getD s 0
        = old_nb + i + k := by
  intro sds
  induction sds with
  | nil => intro i attrs ni s k sd h; simp at h
  | cons sd0 rest ih =>
      intro i attrs ni s k sd hget hmem hunique hlen
      cases k with
      | zero =>
          have hsd0 : sd0 = sd := by
            simpa using hget
          subst hsd0
          rw [applySplitsGo]
          rw [applySplitsGo_snd_getD_untouched indexes old_nb rest _ _ _ s ?_]
          · rw [foldl_set_getD, if_pos ⟨hmem, hlen⟩]
            omega
          · intro sd2 h2
            obtain ⟨k2, hk2lt, hk2eq⟩ := List.mem_iff_getElem.1 h2
            refine hunique (k2 + 1) sd2 (by omega) ?_
            rw [List.getElem?_cons_succ, List.getElem?_eq_getElem hk2lt, hk2eq]
      | succ k =>
          rw [applySplitsGo]
          have hget2 : rest[k]? = some sd := by
            simpa using hget
          have hnotin0 : s ∉ sd0.indexes :=
            hunique 0 sd0 (by omega) (by simp)
          rw [ih (i + 1) _ _ s k sd hget2 hmem ?_ ?_]
          · omega
          · intro k2 sd2 hk2 hk2get
            exact hunique (k2 + 1) sd2 (by omega) (by simpa using hk2get)
          · rw [foldl_set_length]
            exact hlen

theorem attrFold_itemSize (indexes : List ℕ) (old_nb : ℕ) :
    ∀ (sds : List SplitData) (i : ℕ) (a : BufferAttributeE),
      (attrFold indexes old_nb i sds a).itemSize = a.itemSize := by
  intro sds
  induction sds with
  | nil => intro i a; simp [attrFold]
  | cons sd rest ih =>
      intro i a
      simp only [attrFold]
      rw [ih]
      rfl

theorem attrFold_normalized (indexes : List ℕ) (old_nb : ℕ) :
    ∀ (sds : List SplitData) (i : ℕ) (a : BufferAttributeE),
      (attrFold indexes old_nb i sds a).normalized = a.normalized := by
  intro sds
  induction sds with
  | nil => intro i a; simp [attrFold]
  | cons sd rest ih =>
      intro i a
      simp only [attrFold]
      rw [ih]
      rfl

theorem attrFold_length (indexes : List ℕ) (old_nb : ℕ) :
    ∀ (sds : List SplitData) (i : ℕ) (a : BufferAttributeE),
      (attrFold indexes old_nb i sds a).array.length = a.array.length := by
  intro sds
  induction sds with
  | nil => intro i a; simp [attrFold]
  | cons sd rest ih =>
      intro i a
      simp only [attrFold]
      rw [ih]
      exact copyAttrForSplit_length _ _ _ _

theorem attrFold_getD_lt (indexes : List ℕ) (old_nb : ℕ) :
    ∀ (sds : List SplitData) (i : ℕ) (a : BufferAttributeE) (k : ℕ),
      k < (old_nb + i) * a.itemSize →
      (attrFold indexes old_nb i sds a).array.getD k 0 = a.array.getD k 0 := by
  intro sds
  induction sds with
  | nil => intro i a k _; simp [attrFold]
  | cons sd rest ih =>
      intro i a k hk
      simp only [attrFold]
      have hsz : (copyAttrForSplit old_nb i (indexes.getD sd.original 0) a).itemSize
          = a.itemSize := rfl
      rw [ih (i + 1) _ k ?_]
      · exact copyAttrForSplit_getD_lt _ _ _ _ k hk
      · rw [hsz]
        have : (old_nb + i) * a.itemSize ≤ (old_nb + (i + 1)) * a.itemSize :=
          Nat.mul_le_mul_right _ (by omega)
        omega

theorem attrFold_getD_new (indexes : List ℕ) (old_nb : ℕ) :
    ∀ (sds : List SplitData) (i : ℕ) (a : BufferAttributeE) (k : ℕ)
      (sd : SplitData), sds[k]? = some sd →
      ∀ j, j < a.itemSize → indexes.getD sd.original 0 < old_nb →
      (old_nb + i + k) * a.itemSize + j < a.array.length →
      (attrFold indexes old_nb i sds a).array.getD
          ((old_nb + i + k) * a.itemSize + j) 0 =
        a.array.getD ((indexes.getD sd.original 0) * a.itemSize + j) 0 := by
  intro sds
  induction sds with
  | nil => intro i a k sd h; simp at h
  | cons sd0 rest ih =>
      intro i a k sd hget j hj hsrc hbound
      cases k with
      | zero =>
          have hsd0 : sd0 = sd := by simpa using hget
          subst hsd0
          simp only [attrFold]
          have hsz : (copyAttrForSplit old_nb i (indexes.getD sd0.original 0) a).itemSize
              = a.itemSize := rfl
          have hlen : (copyAttrForSplit old_nb i (indexes.getD sd0.original 0) a).array.length
              = a.array.length := copyAttrForSplit_length _ _ _ _
          rw [attrFold_getD_lt indexes old_nb rest (i + 1) _ _ ?_]
          · have hb2 : (old_nb + i) * a.itemSize + j < a.array.length := by
              have : old_nb + i + 0 = old_nb + i := by omega
              rwa [this] at hbound
            have := copyAttrForSplit_getD_new old_nb i
              (indexes.getD sd0.original 0) a j hj hsrc hb2
            have harith : old_nb + i + 0 = old_nb + i := by omega
            rw [harith]
            exact this
          · rw [hsz]
            have h1 : (old_nb + i + 0) = old_nb + i := by omega
            rw [h1]
            have h2 : (old_nb + i) * a.itemSize + j
                < (old_nb + i) * a.itemSize + a.itemSize := by omega
            have h3 : (old_nb + i) * a.itemSize + a.itemSize
                = (old_nb + (i + 1)) * a.itemSize := by ring
            omega
      | succ k =>
          simp only [attrFold]
          have hget2 : rest[k]? = some sd := by simpa using hget
          have hsz : (copyAttrForSplit old_nb i (indexes.getD sd0.original 0) a).itemSize
              = a.itemSize := rfl
          have hlen : (copyAttrForSplit old_nb i (indexes.getD sd0.original 0) a).array.length
              = a.array.length := copyAttrForSplit_length _ _ _ _
          have harith : old_nb + (i + 1) + k = old_nb + i + (k + 1) := by omega
          have hres := ih (i + 1)
            (copyAttrForSplit old_nb i (indexes.getD sd0.original 0) a) k sd
            hget2 j (by rw [hsz]; exact hj) hsrc
            (by rw [hsz, hlen, harith]; exact hbound)
          rw [hsz, harith] at hres
          rw [hres]
          apply copyAttrForSplit_getD_lt
          have h1 : (indexes.getD sd.original 0) * a.itemSize + a.itemSize
              ≤ old_nb * a.itemSize := by
            have h0 : (indexes.getD sd.original 0 + 1) * a.itemSize
                ≤ old_nb * a.itemSize := Nat.mul_le_mul_right _ (by omega)
            rw [Nat.succ_mul] at h0
            exact h0
          have h2 : old_nb * a.itemSize ≤ (old_nb + i) * a.itemSize :=
            Nat.mul_le_mul_right _ (by omega)
          omega

/-- The per-attribute allocation of lines 216-219: a zero-filled typed array
of the new size with the old values copied into its front. -/
def allocAttr (new_nb : ℕ) (p : String × BufferAttributeE) :
    String × BufferAttributeE :=
  (p.1, ⟨p.2.itemSize,
    p.2.array ++ List.replicate (new_nb * p.2.itemSize - p.2.array.length) 0,
    p.2.normalized⟩)

theorem buildNewAttributes_ok (new_nb : ℕ) :
    ∀ (attrs : List (String × BufferAttributeE)),
      (∀ p ∈ attrs, p.2.array.length ≤ new_nb * p.2.itemSize) →
      buildNewAttributes new_nb attrs =
        Except.ok (attrs.map (allocAttr new_nb)) := by
  intro attrs
  induction attrs with
  | nil => intro _; rfl
  | cons p rest ih =>
      intro h
      obtain ⟨nm, a⟩ := p
      rw [buildNewAttributes]
      rw [if_pos (h (nm, a) (by simp))]
      rw [ih (fun q hq => h q (by simp [hq]))]
      simp [allocAttr]

/-! ## Attribute-dictionary lookups through the pipeline -/

theorem lookup_filter_ne (nm del : String) (h : nm ≠ del) :
    ∀ (attrs : List (String × BufferAttributeE)),
      (attrs.filter (fun p => p.1 ≠ del)).lookup nm = attrs.lookup nm := by
  intro attrs
  induction attrs with
  | nil => simp
  | cons p rest ih =>
      obtain ⟨k, a⟩ := p
      by_cases hnmk : nm = k
      · subst hnmk
        simp_all [List.filter_cons, List.lookup_cons, beq_false_of_ne h]
      · by_cases hk : k = del <;>
          simp_all [List.filter_cons, List.lookup_cons, beq_false_of_ne hnmk,
            beq_false_of_ne h]

theorem lookup_map_value (f : BufferAttributeE → BufferAttributeE)
    (nm : String) :
    ∀ (attrs : List (String × BufferAttributeE)),
      (attrs.map (fun q => (q.1, f q.2))).lookup nm =
        (attrs.lookup nm).map f := by
  intro attrs
  induction attrs with
  | nil => simp
  | cons p rest ih =>
      obtain ⟨k, a⟩ := p
      by_cases hnmk : nm = k
      · subst hnmk; simp_all [List.lookup_cons]
      · simp_all [List.lookup_cons, beq_false_of_ne hnmk]

theorem lookup_map_overwrite_ne (nm nm2 : String) (a : BufferAttributeE)
    (h : nm2 ≠ nm) :
    ∀ (l : List (String × BufferAttributeE)),
      (l.map (fun p => if p.1 = nm then (p.1, a) else p)).lookup nm2 =
        l.lookup nm2 := by
  intro l
  induction l with
  | nil => simp
  | cons p rest ih =>
      obtain ⟨k, b⟩ := p
      by_cases hnmk : nm2 = k
      · subst hnmk
        simp_all [List.lookup_cons, beq_false_of_ne h]
      · by_cases hk : k = nm <;>
          simp_all [List.lookup_cons, beq_false_of_ne hnmk, beq_false_of_ne h]

theorem lookup_map_overwrite_self (nm : String) (a : BufferAttributeE) :
    ∀ (l : List (String × BufferAttributeE)),
      (l.lookup nm).isSome = true →
      (l.map (fun p => if p.1 = nm then (p.1, a) else p)).lookup nm =
        some a := by
  intro l
  induction l with
  | nil => intro h; simp at h
  | cons p rest ih =>
      intro h
      obtain ⟨k, b⟩ := p
      by_cases hnmk : nm = k
      · subst hnmk; simp_all [List.lookup_cons]
      · by_cases hk : k = nm
        · subst hk
          simp_all [List.lookup_cons, beq_false_of_ne hnmk]
        · simp_all [List.lookup_cons, beq_false_of_ne hnmk]
          obtain ⟨x, hx⟩ := h
          exact ih x hx

theorem lookup_append_single_ne (nm nm2 : String) (a : BufferAttributeE)
    (h : nm2 ≠ nm) :
    ∀ (l : List (String × BufferAttributeE)),
      (l ++ [(nm, a)]).lookup nm2 = l.lookup nm2 := by
  intro l
  induction l with
  | nil => simp_all [List.lookup_cons, beq_false_of_ne h]
  | cons p rest ih =>
      obtain ⟨k, b⟩ := p
      by_cases hnmk : nm2 = k
      · subst hnmk; simp_all [List.lookup_cons]
      · simp_all [List.lookup_cons, beq_false_of_ne hnmk]

theorem lookup_append_single_self (nm : String) (a : BufferAttributeE) :
    ∀ (l : List (String × BufferAttributeE)),
      l.lookup nm = none → (l ++ [(nm, a)]).lookup nm = some a := by
  intro l
  induction l with
  | nil => intro _; simp [List.lookup_cons]
  | cons p rest ih =>
      intro h
      obtain ⟨k, b⟩ := p
      by_cases hnmk : nm = k
      · subst hnmk; simp_all [List.lookup_cons]
      · simp_all [List.lookup_cons, beq_false_of_ne hnmk]
        exact ih h

theorem getAttribute_setAttribute_ne (m : MeshE) (nm : String)
    (a : BufferAttributeE) (nm2 : String) (h : nm2 ≠ nm) :
    (m.setAttribute nm a).getAttribute nm2 = m.getAttribute nm2 := by
  rw [MeshE.setAttribute]
  by_cases hsome : (m.attributes.lookup nm).isSome
  · rw [if_pos hsome]
    exact lookup_map_overwrite_ne nm nm2 a h m.attributes
  · rw [if_neg hsome]
    exact lookup_append_single_ne nm nm2 a h m.attributes

theorem getAttribute_setAttribute_self (m : MeshE) (nm : String)
    (a : BufferAttributeE) :
    (m.setAttribute nm a).getAttribute nm = some a := by
  rw [MeshE.setAttribute]
  by_cases hsome : (m.attributes.lookup nm).isSome
  · rw [if_pos hsome]
    exact lookup_map_overwrite_self nm a m.attributes hsome
  · rw [if_neg hsome]
    apply lookup_append_single_self
    exact Option.not_isSome_iff_eq_none.1 hsome

theorem setAttribute_index (m : MeshE) (nm : String) (a : BufferAttributeE) :
    (m.setAttribute nm a).index = m.index := by
  rw [MeshE.setAttribute]
  by_cases hsome : (m.attributes.lookup nm).isSome
  · rw [if_pos hsome]
  · rw [if_neg hsome]

theorem setAttribute_isGeometry (m : MeshE) (nm : String)
    (a : BufferAttributeE) :
    (m.setAttribute nm a).isGeometry = m.isGeometry := by
  rw [MeshE.setAttribute]
  by_cases hsome : (m.attributes.lookup nm).isSome
  · rw [if_pos hsome]
  · rw [if_neg hsome]

theorem deleteAttribute_index (m : MeshE) (nm : String) :
    (m.deleteAttribute nm).index = m.index := rfl

/-- Modelled from the spec: `BufferGeometry.computeVertexNormals` is external
three.js library code, not part of this repository's sources.  Spec §4.5:
"recompute normals on the rebuilt mesh using the standard per-vertex
averaging of adjacent face normals (a face's normal contributes equally to
each of its three corners' vertices; a vertex's normal is the normalize of
the sum of contributions from all triangles now referencing it)". -/
def computeVertexNormalsSpec (positions : List ℝ) (indexes : List ℕ) :
    List ℝ :=
  (List.range (positions.length / 3)).flatMap fun v =>
    let s :=
      (List.range indexes.length).foldl
        (fun (acc : Vec3) slot =>
          if indexes.getD slot 0 = v then
            acc.add (triangleNormal positions indexes (3 * (slot / 3)))
          else acc)
        (⟨0, 0, 0⟩ : Vec3)
    let n := s.normalize
    [n.x, n.y, n.z]

/-- Lines 264-267: `changedNormals = Array(oldNormals.length/3).fill(false)`
then `changedNormals[splitData.original] = true` — note the JS store, which
can extend the array past its length with holes, and note that `original` is
a corner slot position, not a vertex index. -/
def markChanged (n : ℕ) (splits : List SplitData) : List (Option Bool) :=
  splits.foldl (fun c sd => jsArraySet c sd.original true)
    (List.replicate n (some false))

/-- Lines 269-278: restore the original normal triple at every entry that is
still strictly `=== false` (holes and `true` marks are skipped). -/
def restoreLoop (changed : List (Option Bool)) (old : List ℝ)
    (arr : List ℝ) : List ℝ :=
  (List.range changed.length).foldl
    (fun a i =>
      if changed.getD i none = some false then
        ((a.set (3 * i) (old.getD (3 * i) 0)).set (3 * i + 1)
            (old.getD (3 * i + 1) 0)).set (3 * i + 2) (old.getD (3 * i + 2) 0)
      else a)
    arr

/-- Lines 258-283: the Normal Reconciler. -/
def reconcileNormals (hadNormals : Bool) (oldNormals : Option (List ℝ))
    (splitIndexes : List SplitData) (g : MeshE) : MeshE :=
  if hadNormals then
    let positions := ((g.getAttribute "position").map (fun a => a.array)).getD []
    let indexes := g.index.getD []
    let recomputed := computeVertexNormalsSpec positions indexes
    let g2 := g.setAttribute "normal" ⟨3, recomputed, false⟩
    match oldNormals with
    | none => g2
    | some old =>
        let changed := markChanged (old.length / 3) splitIndexes
        let arr := ((g2.getAttribute "normal").map (fun a => a.array)).getD []
        g2.setAttribute "normal" ⟨3, restoreLoop changed old arr, false⟩
  else g

/-- `EdgeSplitModifier.modify(geometry, cutOffAngle, tryKeepNormals)`.
`utils` stands for the statically imported `BufferGeometryUtils` merge
collaborator (`none` models it being unavailable). -/
def modify (utils : Option (MeshE → MeshE)) (geometry0 : MeshE)
    (cutOffAngle : ℝ) (tryKeepNormals : Bool) : Except ModifyError MeshE :=
  if geometry0.isGeometry = true then Except.error ModifyError.legacyGeometry
  else
    let hadNormals := (geometry0.getAttribute "normal").isSome
    let oldNormals : Option (List ℝ) :=
      if tryKeepNormals = true ∧ geometry0.index ≠ none then
        (geometry0.getAttribute "normal").map (fun a => a.array)
      else none
    let g1 :=
      if hadNormals then geometry0.deleteAttribute "normal" else geometry0
    match mergeStep utils g1 with
    | Except.error e => Except.error e
    | Except.ok g2 =>
        match g2.index, g2.getAttribute "position" with
        | some indexes, some positionAttr =>
            let positions := positionAttr.array
            let normals := computeNormals positions indexes
            match sequenceOptions
                (mapPositionsToIndexes indexes (positions.length / 3)) with
            | none => Except.error ModifyError.typeError
            | some cornerLists =>
                let cutOff := Real.cos cutOffAngle - 1 / 1000
                let splitIndexes :=
                  cornerLists.foldl
                    (fun acc L => acc ++ edgeSplit normals L cutOff none) []
                let old_nb_indices := positions.length / positionAttr.itemSize
                let new_nb_indices := old_nb_indices + splitIndexes.length
                match buildNewAttributes new_nb_indices g2.attributes with
                | Except.error e => Except.error e
                | Except.ok newAttributes =>
                    let st := applySplits indexes old_nb_indices newAttributes
                      indexes splitIndexes
                    let g3 : MeshE := ⟨false, some st.2, st.1⟩
                    Except.ok
                      (reconcileNormals hadNormals oldNormals splitIndexes g3)
        | _, _ => Except.error ModifyError.typeError

/-! ## Inversion of a successful `modify` call on a valid indexed mesh -/

/-- The full `splitIndexes` list accumulated by `modify` over the per-vertex
corner lists. -/
def modifySplits (positions : List ℝ) (ib : List ℕ) (angle : ℝ) (V : ℕ) :
    List SplitData :=
  ((List.range V).map (fun v => cornersFrom 0 ib v)).foldl
    (fun acc L => acc ++
      edgeSplit (computeNormals positions ib) L (Real.cos angle - 1 / 1000) none)
    []

/-- The attribute dictionary after the (conditional) deletion of the normal
attribute. -/
def strippedAttrs (g : MeshE) : List (String × BufferAttributeE) :=
  (if (g.getAttribute "normal").isSome = true then g.deleteAttribute "normal"
   else g).attributes

theorem sequenceOptions_eq_none_of_mem {α : Type} :
    ∀ (l : List (Option α)), none ∈ l → sequenceOptions l = none := by
  intro l
  induction l with
  | nil => intro h; simp at h
  | cons a t ih =>
      intro h
      match a with
      | none => rfl
      | some x =>
          rcases List.mem_cons.1 h with h1 | h1
          · exact absurd h1.symm (by simp)
          · rw [sequenceOptions, ih h1]
            rfl

theorem reconcileNormals_index (hn : Bool) (o : Option (List ℝ))
    (s : List SplitData) (gm : MeshE) :
    (reconcileNormals hn o s gm).index = gm.index := by
  unfold reconcileNormals
  cases hn with
  | false => simp
  | true =>
      simp only [if_pos rfl]
      cases o with
      | none => simp [setAttribute_index]
      | some old => simp [setAttribute_index]

theorem reconcileNormals_getAttribute_ne (hn : Bool) (o : Option (List ℝ))
    (s : List SplitData) (gm : MeshE) (nm : String) (h : nm ≠ "normal") :
    (reconcileNormals hn o s gm).getAttribute nm = gm.getAttribute nm := by
  unfold reconcileNormals
  cases hn with
  | false => simp
  | true =>
      simp only [if_pos rfl]
      cases o with
      | none => simp [getAttribute_setAttribute_ne _ _ _ _ h]
      | some old => simp [getAttribute_setAttribute_ne _ _ _ _ h]

theorem foldl_append_eq_flatten {α β : Type} (f : α → List β) :
    ∀ (l : List α) (acc : List β),
      l.foldl (fun a x => a ++ f x) acc = acc ++ (l.map f).flatten := by
  intro l
  induction l with
  | nil => intro acc; simp
  | cons x t ih =>
      intro acc
      rw [List.foldl_cons, ih]
      simp

theorem modifySplits_mem (positions : List ℝ) (ib : List ℕ) (angle : ℝ)
    (V : ℕ) (sd : SplitData) :
    sd ∈ modifySplits positions ib angle V ↔
      ∃ v, v ∈ List.range V ∧
        sd ∈ edgeSplit (computeNormals positions ib) (cornersFrom 0 ib v)
          (Real.cos angle - 1 / 1000) none := by
  rw [modifySplits, foldl_append_eq_flatten]
  simp [List.mem_flatten]

/-- Every record of the full split list: a non-empty group of corner slots
that all reference the same vertex as the record's `original` slot. -/
theorem modifySplits_records (positions : List ℝ) (ib : List ℕ) (angle : ℝ)
    (V : ℕ) :
    ∀ sd ∈ modifySplits positions ib angle V,
      sd.indexes ≠ [] ∧ sd.original < ib.length ∧
      ib.getD sd.original 0 < V ∧
      ∀ s ∈ sd.indexes, s < ib.length ∧
        ib.getD s 0 = ib.getD sd.original 0 := by
  intro sd hsd
  obtain ⟨v, hvmem, hrun⟩ := (modifySplits_mem positions ib angle V sd).1 hsd
  have hv : v < V := List.mem_range.1 hvmem
  have hcf : ∀ x ∈ cornersFrom 0 ib v, x < ib.length ∧ ib.getD x 0 = v := by
    intro x hx
    obtain ⟨_, h2, h3⟩ := cornersFrom_mem v ib 0 x hx
    refine ⟨by omega, ?_⟩
    simpa using h3
  have hrec := edgeSplit_records (computeNormals positions ib)
    (Real.cos angle - 1 / 1000)
    (fun x => x < ib.length ∧ ib.getD x 0 = v)
    (cornersFrom 0 ib v) none hcf (by intro k hk; cases hk) sd hrun
  obtain ⟨⟨ho1, ho2⟩, hne, hall⟩ := hrec
  refine ⟨hne, ho1, by rw [ho2]; exact hv, ?_⟩
  intro s hs
  obtain ⟨h1, h2⟩ := hall s hs
  exact ⟨h1, by rw [h2, ho2]⟩

theorem modifySplits_pairwise (positions : List ℝ) (ib : List ℕ) (angle : ℝ)
    (V : ℕ) :
    (modifySplits positions ib angle V).Pairwise
      (fun a b => ∀ s ∈ a.indexes, s ∉ b.indexes) := by
  rw [modifySplits, foldl_append_eq_flatten]
  rw [List.nil_append]
  apply List.pairwise_flatten.2
  constructor
  · intro l hl
    obtain ⟨L, _, rfl⟩ := List.mem_map.1 hl
    exact edgeSplit_pairwise_disjoint _ _ _ _
  · rw [List.map_map, List.pairwise_map]
    apply List.Pairwise.imp ?_ (List.pairwise_lt_range V)
    intro v1 v2 hlt a ha b hb s hsa hsb
    simp only [Function.comp] at ha hb
    have hP1 : ∀ x ∈ cornersFrom 0 ib v1, x < ib.length ∧ ib.getD x 0 = v1 := by
      intro x hx
      obtain ⟨_, h2, h3⟩ := cornersFrom_mem v1 ib 0 x hx
      exact ⟨by omega, by simpa using h3⟩
    have hP2 : ∀ x ∈ cornersFrom 0 ib v2, x < ib.length ∧ ib.getD x 0 = v2 := by
      intro x hx
      obtain ⟨_, h2, h3⟩ := cornersFrom_mem v2 ib 0 x hx
      exact ⟨by omega, by simpa using h3⟩
    have hs1 := (edgeSplit_records _ _ _ _ _ hP1
      (by intro k hk; cases hk) a ha).2.2 s hsa
    have hs2 := (edgeSplit_records _ _ _ _ _ hP2
      (by intro k hk; cases hk) b hb).2.2 s hsb
    omega

/-- Rewritten index buffer: every slot either keeps its original vertex index
or points at the appended slot `V + k` of the (unique) group containing it,
and that group descends from the same original vertex. -/
theorem applySplits_index_spec (positions : List ℝ) (ib : List ℕ)
    (angle : ℝ) (V : ℕ)
    (newA : List (String × BufferAttributeE)) :
    (applySplits ib V newA ib (modifySplits positions ib angle V)).2.length
      = ib.length ∧
    ∀ s, s < ib.length →
      (applySplits ib V newA ib (modifySplits positions ib angle V)).2.getD s 0
        = ib.getD s 0 ∨
      ∃ k sd, (modifySplits positions ib angle V)[k]? = some sd ∧
        s ∈ sd.indexes ∧
        (applySplits ib V newA ib (modifySplits positions ib angle V)).2.getD s 0
          = V + k ∧
        sd.original < ib.length ∧
        ib.getD sd.original 0 = ib.getD s 0 := by
  constructor
  · exact applySplitsGo_snd_length ib V _ 0 newA ib
  · intro s hs
    by_cases hin : ∃ (k : ℕ) (sd : SplitData),
        (modifySplits positions ib angle V)[k]? = some sd ∧ s ∈ sd.indexes
    · obtain ⟨k, sd, hk, hmem⟩ := hin
      have hsdmem : sd ∈ modifySplits positions ib angle V := by
        have hklt := (List.getElem?_eq_some_iff.1 hk).1
        have : (modifySplits positions ib angle V)[k] = sd := by
          have := List.getElem?_eq_getElem hklt
          rw [this] at hk
          exact Option.some.inj hk
        rw [← this]
        exact List.getElem_mem hklt
      have hrec := modifySplits_records positions ib angle V sd hsdmem
      have hpw := modifySplits_pairwise positions ib angle V
      have hunique : ∀ k2 sd2, k2 ≠ k →
          (modifySplits positions ib angle V)[k2]? = some sd2 →
          s ∉ sd2.indexes := by
        intro k2 sd2 hne hk2 hmem2
        have hk2lt := (List.getElem?_eq_some_iff.1 hk2).1
        have hklt := (List.getElem?_eq_some_iff.1 hk).1
        have hgk : (modifySplits positions ib angle V)[k] = sd := by
          have := List.getElem?_eq_getElem hklt
          rw [this] at hk
          exact Option.some.inj hk
        have hgk2 : (modifySplits positions ib angle V)[k2] = sd2 := by
          have := List.getElem?_eq_getElem hk2lt
          rw [this] at hk2
          exact Option.some.inj hk2
        rcases Nat.lt_or_ge k k2 with hlt | hge
        · have := (List.pairwise_iff_getElem.1 hpw) k k2 hklt hk2lt hlt
          rw [hgk, hgk2] at this
          exact this s hmem hmem2
        · have hlt2 : k2 < k := by omega
          have := (List.pairwise_iff_getElem.1 hpw) k2 k hk2lt hklt hlt2
          rw [hgk, hgk2] at this
          exact this s hmem2 hmem
      right
      refine ⟨k, sd, hk, hmem, ?_, hrec.2.1, (hrec.2.2.2 s hmem).2.symm⟩
      have hval := applySplitsGo_snd_getD_mem ib V
        (modifySplits positions ib angle V) 0 newA ib s k sd hk hmem
        hunique hs
      show (applySplitsGo ib V 0 (newA, ib)
        (modifySplits positions ib angle V)).2.getD s 0 = V + k
      rw [hval]
      omega
    · left
      apply applySplitsGo_snd_getD_untouched
      intro sd hsd hmem
      apply hin
      obtain ⟨k, hklt, hkeq⟩ := List.mem_iff_getElem.1 hsd
      exact ⟨k, sd, by rw [List.getElem?_eq_getElem hklt, hkeq], hmem⟩

/-- The accumulated per-attribute transformation: the original `V` vertex
slots keep their values, and appended slot `V + k` carries, componentwise,
the values of the vertex referenced by the `k`-th split's `original`
corner. -/
theorem attrFold_spec (ib : List ℕ) (V : ℕ) (sds : List SplitData)
    (a : BufferAttributeE)
    (hsrc : ∀ sd ∈ sds, ib.getD sd.original 0 < V)
    (hlen : a.array.length = (V + sds.length) * a.itemSize) :
    (attrFold ib V 0 sds a).itemSize = a.itemSize ∧
    (attrFold ib V 0 sds a).normalized = a.normalized ∧
    (attrFold ib V 0 sds a).array.length = a.array.length ∧
    (∀ k, k < V * a.itemSize →
      (attrFold ib V 0 sds a).array.getD k 0 = a.array.getD k 0) ∧
    (∀ k sd, sds[k]? = some sd → ∀ j, j < a.itemSize →
      (attrFold ib V 0 sds a).array.getD ((V + k) * a.itemSize + j) 0 =
        a.array.getD ((ib.getD sd.original 0) * a.itemSize + j) 0) := by
  refine ⟨attrFold_itemSize ib V sds 0 a, attrFold_normalized ib V sds 0 a,
    attrFold_length ib V sds 0 a, ?_, ?_⟩
  · intro k hk
    apply attrFold_getD_lt
    simpa using hk
  · intro k sd hk j hj
    have hklt := (List.getElem?_eq_some_iff.1 hk).1
    have hsdmem : sd ∈ sds := by
      have hgk : sds[k] = sd := by
        have := List.getElem?_eq_getElem hklt
        rw [this] at hk
        exact Option.some.inj hk
      rw [← hgk]
      exact List.getElem_mem hklt
    have hsrc2 := hsrc sd hsdmem
    have hbound : (V + 0 + k) * a.itemSize + j < a.array.length := by
      rw [hlen]
      have h1 : (V + 0 + k) * a.itemSize + a.itemSize
          = (V + k + 1) * a.itemSize := by ring
      have h2 : (V + k + 1) * a.itemSize ≤ (V + sds.length) * a.itemSize :=
        Nat.mul_le_mul_right _ (by omega)
      omega
    have := attrFold_getD_new ib V sds 0 a k sd hk j hj hsrc2 hbound
    have harith : V + 0 + k = V + k := by omega
    rwa [harith] at this

theorem modify_ok_spec (utils : Option (MeshE → MeshE)) (g out : MeshE)
    (angle : ℝ) (tkn : Bool) (ib : List ℕ) (pa : BufferAttributeE) (V : ℕ)
    (hGeom : g.isGeometry = false)
    (hIdx : g.index = some ib)
    (hPos : g.getAttribute "position" = some pa)
    (hSz : pa.itemSize = 3)
    (hLen : pa.array.length = 3 * V)
    (hRange : ∀ i ∈ ib, i < V)
    (hAttrs : ∀ p ∈ g.attributes, p.2.array.length = V * p.2.itemSize)
    (hOk : modify utils g angle tkn = Except.ok out) :
    (∀ v, v < V → v ∈ ib) ∧
    out = reconcileNormals (g.getAttribute "normal").isSome
        (if tkn = true ∧ g.index ≠ none then
          (g.getAttribute "normal").map (fun a => a.array) else none)
        (modifySplits pa.array ib angle V)
        ⟨false,
         some (applySplits ib V
            ((strippedAttrs g).map
              (allocAttr (V + (modifySplits pa.array ib angle V).length)))
            ib (modifySplits pa.array ib angle V)).2,
         (applySplits ib V
            ((strippedAttrs g).map
              (allocAttr (V + (modifySplits pa.array ib angle V).length)))
            ib (modifySplits pa.array ib angle V)).1⟩ := by
  have hg1 : (if (g.getAttribute "normal").isSome = true then
      g.deleteAttribute "normal" else g).index = some ib := by
    by_cases hn : (g.getAttribute "normal").isSome = true <;>
      simp [hn, deleteAttribute_index, hIdx]
  have hg1pos : (if (g.getAttribute "normal").isSome = true then
      g.deleteAttribute "normal" else g).getAttribute "position" = some pa := by
    by_cases hn : (g.getAttribute "normal").isSome = true
    · rw [if_pos hn]
      calc (g.deleteAttribute "normal").getAttribute "position"
          = g.getAttribute "position" :=
            lookup_filter_ne "position" "normal" (by decide) g.attributes
        _ = some pa := hPos
    · rw [if_neg hn]
      exact hPos
  have hmerge : mergeStep utils (if (g.getAttribute "normal").isSome = true
      then g.deleteAttribute "normal" else g) =
      Except.ok (if (g.getAttribute "normal").isSome = true then
        g.deleteAttribute "normal" else g) := by
    unfold mergeStep
    rw [if_neg (by rw [hg1]; simp)]
  have h3V : 3 * V / 3 = V := by omega
  simp only [modify, hGeom, Bool.false_eq_true, if_false, hmerge, hg1, hg1pos,
    hLen, hSz, h3V] at hOk
  by_cases href : ∀ v, v < V → v ∈ ib
  · have hmpti := mapPositionsToIndexes_eq_map ib V hRange
      (fun v hv => href v hv)
    have hseq : sequenceOptions (mapPositionsToIndexes ib V) =
        some ((List.range V).map (fun v => cornersFrom 0 ib v)) := by
      rw [hmpti]
      rw [show (List.range V).map (fun v => some (cornersFrom 0 ib v)) =
          ((List.range V).map (fun v => cornersFrom 0 ib v)).map some from by
        rw [List.map_map]; rfl]
      exact sequenceOptions_map_some _
    rw [hseq] at hOk
    have hms : ((List.range V).map (fun v => cornersFrom 0 ib v)).foldl
        (fun acc L => acc ++
          edgeSplit (computeNormals pa.array ib) L (Real.cos angle - 1 / 1000)
            none) [] = modifySplits pa.array ib angle V := rfl
    have hbound : ∀ p ∈ (if (g.getAttribute "normal").isSome = true then
        g.deleteAttribute "normal" else g).attributes,
        p.2.array.length ≤
          (V + (modifySplits pa.array ib angle V).length) * p.2.itemSize := by
      intro p hp
      have hpg : p ∈ g.attributes := by
        by_cases hn : (g.getAttribute "normal").isSome = true
        · rw [if_pos hn] at hp
          exact List.mem_of_mem_filter hp
        · rw [if_neg hn] at hp
          exact hp
      have := hAttrs p hpg
      have hmul : V * p.2.itemSize ≤
          (V + (modifySplits pa.array ib angle V).length) * p.2.itemSize :=
        Nat.mul_le_mul_right _ (by omega)
      omega
    have hbna := buildNewAttributes_ok
      (V + (modifySplits pa.array ib angle V).length)
      ((if (g.getAttribute "normal").isSome = true then
        g.deleteAttribute "normal" else g).attributes) hbound
    simp only [hms] at hOk
    rw [hbna] at hOk
    refine ⟨href, ?_⟩
    have hstr : (if (g.getAttribute "normal").isSome = true then
        g.deleteAttribute "normal" else g).attributes = strippedAttrs g := rfl
    rw [hstr] at hOk
    simp only [applySplits] at hOk ⊢
    exact (Except.ok.inj hOk).symm
  · push_neg at href
    obtain ⟨v, hv, hvnot⟩ := href
    have hcf : cornersFrom 0 ib v = [] := by
      by_contra hc
      exact hvnot ((cornersFrom_ne_nil_iff v ib 0).1 hc)
    have hgd : (mapPositionsToIndexes ib V).getD v none = none := by
      rw [mapPositionsToIndexes_getD ib V v hv hRange, if_pos hcf]
    have hvlen : v < (mapPositionsToIndexes ib V).length := by
      rw [mapPositionsToIndexes_length ib V hRange]
      exact hv
    have hmem : (none : Option (List ℕ)) ∈ mapPositionsToIndexes ib V := by
      have hget : (mapPositionsToIndexes ib V).getD v none =
          (mapPositionsToIndexes ib V)[v] := by
        rw [List.getD_eq_getElem?_getD, List.getElem?_eq_getElem hvlen]
        simp
      rw [hget] at hgd
      rw [← hgd]
      exact List.getElem_mem hvlen
    have hseq := sequenceOptions_eq_none_of_mem (mapPositionsToIndexes ib V)
      hmem
    rw [hseq] at hOk
    simp at hOk

/-- Forward evaluation of a successful `modify` call: on a non-legacy indexed
mesh whose index buffer references every vertex, the call succeeds and
returns exactly the reconciled rebuild. -/
theorem modify_eval (utils : Option (MeshE → MeshE)) (g : MeshE)
    (angle : ℝ) (tkn : Bool) (ib : List ℕ) (pa : BufferAttributeE) (V : ℕ)
    (hGeom : g.isGeometry = false)
    (hIdx : g.index = some ib)
    (hPos : g.getAttribute "position" = some pa)
    (hSz : pa.itemSize = 3)
    (hLen : pa.array.length = 3 * V)
    (hRange : ∀ i ∈ ib, i < V)
    (hAttrs : ∀ p ∈ g.attributes, p.2.array.length = V * p.2.itemSize)
    (href : ∀ v, v < V → v ∈ ib) :
    modify utils g angle tkn = Except.ok
      (reconcileNormals (g.getAttribute "normal").isSome
        (if tkn = true ∧ g.index ≠ none then
          (g.getAttribute "normal").map (fun a => a.array) else none)
        (modifySplits pa.array ib angle V)
        ⟨false,
         some (applySplits ib V
            ((strippedAttrs g).map
              (allocAttr (V + (modifySplits pa.array ib angle V).length)))
            ib (modifySplits pa.array ib angle V)).2,
         (applySplits ib V
            ((strippedAttrs g).map
              (allocAttr (V + (modifySplits pa.array ib angle V).length)))
            ib (modifySplits pa.array ib angle V)).1⟩) := by
  have hg1 : (if (g.getAttribute "normal").isSome = true then
      g.deleteAttribute "normal" else g).index = some ib := by
    by_cases hn : (g.getAttribute "normal").isSome = true <;>
      simp [hn, deleteAttribute_index, hIdx]
  have hg1pos : (if (g.getAttribute "normal").isSome = true then
      g.deleteAttribute "normal" else g).getAttribute "position" = some pa := by
    by_cases hn : (g.getAttribute "normal").isSome = true
    · rw [if_pos hn]
      calc (g.deleteAttribute "normal").getAttribute "position"
          = g.getAttribute "position" :=
            lookup_filter_ne "position" "normal" (by decide) g.attributes
        _ = some pa := hPos
    · rw [if_neg hn]
      exact hPos
  have hmerge : mergeStep utils (if (g.getAttribute "normal").isSome = true
      then g.deleteAttribute "normal" else g) =
      Except.ok (if (g.getAttribute "normal").isSome = true then
        g.deleteAttribute "normal" else g) := by
    unfold mergeStep
    rw [if_neg (by rw [hg1]; simp)]
  have h3V : 3 * V / 3 = V := by omega
  simp only [modify, hGeom, Bool.false_eq_true, if_false, hmerge, hg1, hg1pos,
    hLen, hSz, h3V]
  have hmpti := mapPositionsToIndexes_eq_map ib V hRange
    (fun v hv => href v hv)
  have hseq : sequenceOptions (mapPositionsToIndexes ib V) =
      some ((List.range V).map (fun v => cornersFrom 0 ib v)) := by
    rw [hmpti]
    rw [show (List.range V).map (fun v => some (cornersFrom 0 ib v)) =
        ((List.range V).map (fun v => cornersFrom 0 ib v)).map some from by
      rw [List.map_map]; rfl]
    exact sequenceOptions_map_some _
  rw [hseq]
  have hms : ((List.range V).map (fun v => cornersFrom 0 ib v)).foldl
      (fun acc L => acc ++
        edgeSplit (computeNormals pa.array ib) L (Real.cos angle - 1 / 1000)
          none) [] = modifySplits pa.array ib angle V := rfl
  have hbound : ∀ p ∈ (if (g.getAttribute "normal").isSome = true then
      g.deleteAttribute "normal" else g).attributes,
      p.2.array.length ≤
        (V + (modifySplits pa.array ib angle V).length) * p.2.itemSize := by
    intro p hp
    have hpg : p ∈ g.attributes := by
      by_cases hn : (g.getAttribute "normal").isSome = true
      · rw [if_pos hn] at hp
        exact List.mem_of_mem_filter hp
      · rw [if_neg hn] at hp
        exact hp
    have := hAttrs p hpg
    have hmul : V * p.2.itemSize ≤
        (V + (modifySplits pa.array ib angle V).length) * p.2.itemSize :=
      Nat.mul_le_mul_right _ (by omega)
    omega
  have hbna := buildNewAttributes_ok
    (V + (modifySplits pa.array ib angle V).length)
    ((if (g.getAttribute "normal").isSome = true then
      g.deleteAttribute "normal" else g).attributes) hbound
  simp only [hms]
  rw [hbna]
  have hstr : (if (g.getAttribute "normal").isSome = true then
      g.deleteAttribute "normal" else g).attributes = strippedAttrs g := rfl
  rw [hstr]

/-- With a cutoff below `-1` (as at `cutOffAngle = π`) no corner list ever
produces a record, so the whole accumulated split list is empty. -/
theorem modifySplits_generous (positions : List ℝ) (ib : List ℕ) (angle : ℝ)
    (V : ℕ) (hc : Real.cos angle - 1 / 1000 < -1) :
    modifySplits positions ib angle V = [] := by
  rw [modifySplits, foldl_append_eq_flatten, List.nil_append]
  apply List.flatten_eq_nil_iff.2
  intro xs hxs
  rcases List.mem_map.1 hxs with ⟨L, _, rfl⟩
  exact edgeSplit_generous _ _ hc L

theorem lookup_filter_self (nm : String) :
    ∀ (attrs : List (String × BufferAttributeE)),
      (attrs.filter (fun p => p.1 ≠ nm)).lookup nm = none := by
  intro attrs
  induction attrs with
  | nil => rfl
  | cons p rest ih =>
      obtain ⟨k, a⟩ := p
      rw [List.filter_cons]
      by_cases hk : k = nm
      · rw [if_neg (by simp [hk])]
        exact ih
      · rw [if_pos (by simp [hk])]
        rw [List.lookup_cons, beq_false_of_ne (Ne.symm hk)]
        exact ih

theorem lookup_mem (nm : String) :
    ∀ (attrs : List (String × BufferAttributeE)) (a : BufferAttributeE),
      attrs.lookup nm = some a → (nm, a) ∈ attrs := by
  intro attrs
  induction attrs with
  | nil => intro a h; simp at h
  | cons p rest ih =>
      intro a h
      obtain ⟨k, b⟩ := p
      by_cases hnmk : nm = k
      · subst hnmk
        rw [List.lookup_cons] at h
        simp at h
        simp [h]
      · rw [List.lookup_cons, beq_false_of_ne hnmk] at h
        exact List.mem_cons_of_mem _ (ih a h)

/-- The attribute dictionary after the conditional normal deletion, looked
up at any other name, agrees with the original dictionary. -/
theorem lookup_strippedAttrs_ne (g : MeshE) (nm : String)
    (h : nm ≠ "normal") :
    (strippedAttrs g).lookup nm = g.attributes.lookup nm := by
  rw [strippedAttrs]
  by_cases hn : (g.getAttribute "normal").isSome = true
  · rw [if_pos hn]
    exact lookup_filter_ne nm "normal" h g.attributes
  · rw [if_neg hn]

theorem strippedAttrs_of_normal (g : MeshE)
    (hn : (g.getAttribute "normal").isSome = true) :
    strippedAttrs g = g.attributes.filter (fun p => p.1 ≠ "normal") := by
  rw [strippedAttrs, if_pos hn]
  rfl

theorem getD_append_left {α : Type} [Inhabited α] (l l2 : List α) (k : ℕ)
    (h : k < l.length) (d : α) : (l ++ l2).getD k d = l.getD k d := by
  rw [List.getD_eq_getElem?_getD, List.getD_eq_getElem?_getD,
    List.getElem?_append_left h]

/-- Allocation is the identity on an attribute whose array already has the
target size. -/
theorem allocAttr_exact (new_nb : ℕ) (p : String × BufferAttributeE)
    (h : p.2.array.length = new_nb * p.2.itemSize) :
    allocAttr new_nb p = p := by
  obtain ⟨nm, a⟩ := p
  simp only [allocAttr]
  rw [show new_nb * a.itemSize - a.array.length = 0 from by
    simp at h; omega]
  simp

theorem map_allocAttr_exact (new_nb : ℕ)
    (l : List (String × BufferAttributeE))
    (h : ∀ p ∈ l, p.2.array.length = new_nb * p.2.itemSize) :
    l.map (allocAttr new_nb) = l := by
  rw [List.map_congr_left (fun p hp => allocAttr_exact new_nb p (h p hp))]
  exact List.map_id l

theorem computeVertexNormalsSpec_length (positions : List ℝ)
    (indexes : List ℕ) :
    (computeVertexNormalsSpec positions indexes).length
      = 3 * (positions.length / 3) := by
  rw [computeVertexNormalsSpec]
  simp [List.length_flatMap, Function.comp_def, List.map_const',
    List.sum_replicate, Nat.mul_comm]

theorem restoreFold_length (old : List ℝ) :
    ∀ (l : List ℕ) (arr : List ℝ),
      (l.foldl (fun a i =>
          ((a.set (3 * i) (old.getD (3 * i) 0)).set (3 * i + 1)
              (old.getD (3 * i + 1) 0)).set (3 * i + 2)
            (old.getD (3 * i + 2) 0)) arr).length = arr.length := by
  intro l
  induction l with
  | nil => intro arr; rfl
  | cons i t ih =>
      intro arr
      rw [List.foldl_cons, ih]
      simp

theorem restoreFold_getD (old : List ℝ) :
    ∀ (l : List ℕ) (arr : List ℝ) (j : ℕ), j < arr.length →
      (l.foldl (fun a i =>
          ((a.set (3 * i) (old.getD (3 * i) 0)).set (3 * i + 1)
              (old.getD (3 * i + 1) 0)).set (3 * i + 2)
            (old.getD (3 * i + 2) 0)) arr).getD j 0 =
        if j / 3 ∈ l then old.getD j 0 else arr.getD j 0 := by
  intro l
  induction l with
  | nil => intro arr j _; simp
  | cons i t ih =>
      intro arr j hj
      rw [List.foldl_cons]
      have hlen : (((arr.set (3 * i) (old.getD (3 * i) 0)).set (3 * i + 1)
          (old.getD (3 * i + 1) 0)).set (3 * i + 2)
            (old.getD (3 * i + 2) 0)).length = arr.length := by simp
      rw [ih _ j (by rw [hlen]; exact hj)]
      by_cases hjt : j / 3 ∈ t
      · rw [if_pos hjt, if_pos (List.mem_cons_of_mem _ hjt)]
      · rw [if_neg hjt]
        by_cases hji : j / 3 = i
        · rw [if_pos (by simp [hji])]
          have hcase : j = 3 * i ∨ j = 3 * i + 1 ∨ j = 3 * i + 2 := by omega
          rcases hcase with rfl | rfl | rfl
          · rw [getD_set_ne _ _ _ _ _ (by omega),
              getD_set_ne _ _ _ _ _ (by omega),
              getD_set_eq _ _ _ _ hj]
          · rw [getD_set_ne _ _ _ _ _ (by omega),
              getD_set_eq _ _ _ _ (by simpa using hj)]
          · rw [getD_set_eq _ _ _ _ (by simpa using hj)]
        · rw [if_neg (by simp [hji, hjt])]
          rw [getD_set_ne _ _ _ _ _ (by omega),
            getD_set_ne _ _ _ _ _ (by omega),
            getD_set_ne _ _ _ _ _ (by omega)]

/-- When no entry was marked changed, the restore loop writes the whole old
normal buffer back verbatim. -/
theorem restoreLoop_replicate_full (n : ℕ) (old arr : List ℝ)
    (hold : old.length = 3 * n) (harr : arr.length = 3 * n) :
    restoreLoop (List.replicate n (some false)) old arr = old := by
  have hplain : restoreLoop (List.replicate n (some false)) old arr =
      (List.range n).foldl (fun a i =>
        ((a.set (3 * i) (old.getD (3 * i) 0)).set (3 * i + 1)
            (old.getD (3 * i + 1) 0)).set (3 * i + 2)
          (old.getD (3 * i + 2) 0)) arr := by
    rw [restoreLoop, List.length_replicate]
    have hgen : ∀ (l : List ℕ), (∀ i ∈ l, i < n) → ∀ (a0 : List ℝ),
        l.foldl (fun a i =>
          if (List.replicate n (some false)).getD i none = some false then
            ((a.set (3 * i) (old.getD (3 * i) 0)).set (3 * i + 1)
                (old.getD (3 * i + 1) 0)).set (3 * i + 2)
              (old.getD (3 * i + 2) 0)
          else a) a0 =
        l.foldl (fun a i =>
          ((a.set (3 * i) (old.getD (3 * i) 0)).set (3 * i + 1)
              (old.getD (3 * i + 1) 0)).set (3 * i + 2)
            (old.getD (3 * i + 2) 0)) a0 := by
      intro l
      induction l with
      | nil => intro _ a0; rfl
      | cons i t ih =>
          intro hmem a0
          rw [List.foldl_cons, List.foldl_cons]
          have hi : i < n := hmem i (by simp)
          rw [if_pos (by
            simp [List.getD_eq_getElem?_getD, List.getElem?_replicate, hi])]
          exact ih (fun x hx => hmem x (by simp [hx])) _
    exact hgen (List.range n) (fun i hi => List.mem_range.1 hi) arr
  rw [hplain]
  apply List.ext_getElem
  · rw [restoreFold_length]
    omega
  · intro k h1 h2
    have hlen2 : k < arr.length := by
      rw [restoreFold_length] at h1
      exact h1
    have hgd := restoreFold_getD old (List.range n) arr k hlen2
    rw [if_pos (List.mem_range.2 (by omega))] at hgd
    have hL : ((List.range n).foldl (fun a i =>
        ((a.set (3 * i) (old.getD (3 * i) 0)).set (3 * i + 1)
            (old.getD (3 * i + 1) 0)).set (3 * i + 2)
          (old.getD (3 * i + 2) 0)) arr).getD k 0 =
        ((List.range n).foldl (fun a i =>
        ((a.set (3 * i) (old.getD (3 * i) 0)).set (3 * i + 1)
            (old.getD (3 * i + 1) 0)).set (3 * i + 2)
          (old.getD (3 * i + 2) 0)) arr)[k] := by
      rw [List.getD_eq_getElem?_getD, List.getElem?_eq_getElem h1]
      rfl
    have hR : old.getD k 0 = old[k] := by
      rw [List.getD_eq_getElem?_getD, List.getElem?_eq_getElem h2]
      rfl
    rw [← hL, hgd]
    exact hR

/-- A one-element corner list never records a split: its seed partition has
an empty split group. -/
theorem edgeSplit_singleton (normals : List ℝ) (c : ℝ) (x : ℕ) :
    edgeSplit normals [x] c none = [] := by
  rw [edgeSplit]
  norm_num [edgeSplitToGroups, edgeSplitToGroupsStep, selectBest]

/-! ## Concrete meshes used to settle the claims

All vertex data below is exact (small integers and simple rationals), so the
real-number evaluations are exact. -/

/-- One right triangle stored over four vertices: vertex 3 is referenced by
no corner. -/
def P2 : List ℝ := [-1, 0, 0, 0, 0, 0, 0, 1, 0, 5, 5, 5]

def M2 : MeshE := ⟨false, some [0, 1, 2], [("position", ⟨3, P2, false⟩)]⟩

/-- On the mesh with an unreferenced vertex the corner-index array keeps a
hole at that vertex, and the per-vertex loop dereferences the hole
(`undefined.length`): the call throws for every cutoff angle. -/
theorem M2_modify_typeError (a : ℝ) (t : Bool) :
    modify none M2 a t = Except.error ModifyError.typeError := by
  have hlen : P2.length = 12 := by norm_num [P2]
  norm_num +decide [modify, M2, MeshE.getAttribute, MeshE.deleteAttribute,
    List.lookup, mergeStep, mapPositionsToIndexes, mptiGo, jsArraySet,
    List.replicate_succ, List.set, sequenceOptions, hlen]

/-- One right triangle over three vertices, with a `uv` attribute whose
array is too short for the vertex count (4 entries instead of `3 * 2`). -/
def P3 : List ℝ := [-1, 0, 0, 0, 0, 0, 0, 1, 0]

def M3 : MeshE :=
  ⟨false, some [0, 1, 2],
   [("position", ⟨3, P3, false⟩), ("uv", ⟨2, [0, 0, 1, 0], false⟩)]⟩

/-- What `modify` returns on `M3`: no split happens, the undersized `uv`
array is silently zero-padded to the allocated size. -/
def M3out : MeshE :=
  ⟨false, some [0, 1, 2],
   [("position", ⟨3, P3, false⟩), ("uv", ⟨2, [0, 0, 1, 0, 0, 0], false⟩)]⟩

theorem M3_eval (a : ℝ) : modify none M3 a true = Except.ok M3out := by
  have hlen : P3.length = 9 := by norm_num [P3]
  norm_num +decide [modify, M3, M3out, MeshE.getAttribute,
    MeshE.deleteAttribute, List.lookup, mergeStep, mapPositionsToIndexes,
    mptiGo, jsArraySet, List.replicate_succ, List.set, sequenceOptions, hlen,
    edgeSplit_singleton, buildNewAttributes, applySplits, applySplitsGo,
    reconcileNormals]

/-- The butterfly: two triangles sharing the edge `(vertex 0, vertex 1)`,
one in front of it and one behind it, with authored normals `(1,0,0)`
everywhere. -/
def PB : List ℝ := [0, 0, 0, 0, 1, 0, -1, 0, 0, 1, 0, 0]

def NrmAuthored : List ℝ := [1, 0, 0, 1, 0, 0, 1, 0, 0, 1, 0, 0]

def MB : MeshE :=
  ⟨false, some [2, 0, 1, 3, 0, 1],
   [("position", ⟨3, PB, false⟩), ("normal", ⟨3, NrmAuthored, false⟩)]⟩

/-- The per-corner face normals of the butterfly: `(0,0,1)` for the first
triangle's three corners, `(0,0,-1)` for the second's. -/
def NF : List ℝ :=
  [0, 0, 1, 0, 0, 1, 0, 0, 1, 0, 0, -1, 0, 0, -1, 0, 0, -1]

def PBnew : List ℝ :=
  [0, 0, 0, 0, 1, 0, -1, 0, 0, 1, 0, 0, 0, 0, 0, 0, 1, 0]

def RestN : List ℝ :=
  [1, 0, 0, 0, 0, 1, 0, 0, 1, 1, 0, 0, 0, 0, -1, 0, 0, -1]

def MBout : MeshE :=
  ⟨false, some [2, 0, 1, 3, 4, 5],
   [("position", ⟨3, PBnew, false⟩), ("normal", ⟨3, RestN, false⟩)]⟩

theorem MB_normals : computeNormals PB [2, 0, 1, 3, 0, 1] = NF := by
  norm_num [computeNormals, triangleNormal, posAt, PB, NF, Vec3.sub,
    Vec3.cross, Vec3.normalize, Vec3.len, List.range_succ, Real.sqrt_one]

theorem MB_run14 : ∀ c : ℝ, (-1 : ℝ) < c →
    edgeSplit NF [1, 4] c none = [⟨1, [4]⟩] := by
  intro c hc
  rw [edgeSplit]
  norm_num +decide [edgeSplitToGroups, edgeSplitToGroupsStep, selectBest,
    normalAt, NF, Vec3.normalize, Vec3.len, Vec3.dot, Real.sqrt_one, hc,
    jsOrIdx]
  rw [edgeSplit]
  norm_num +decide [edgeSplitToGroups, edgeSplitToGroupsStep, selectBest]

theorem MB_run25 : ∀ c : ℝ, (-1 : ℝ) < c →
    edgeSplit NF [2, 5] c none = [⟨2, [5]⟩] := by
  intro c hc
  rw [edgeSplit]
  norm_num +decide [edgeSplitToGroups, edgeSplitToGroupsStep, selectBest,
    normalAt, NF, Vec3.normalize, Vec3.len, Vec3.dot, Real.sqrt_one, hc,
    jsOrIdx]
  rw [edgeSplit]
  norm_num +decide [edgeSplitToGroups, edgeSplitToGroupsStep, selectBest]

theorem MB_applySplits : applySplits [2, 0, 1, 3, 0, 1] 4
    [("position", ⟨3, PB ++ [0, 0, 0, 0, 0, 0], false⟩)] [2, 0, 1, 3, 0, 1]
    [⟨1, [4]⟩, ⟨2, [5]⟩] =
      ([("position", ⟨3, PBnew, false⟩)], [2, 0, 1, 3, 4, 5]) := by
  norm_num [applySplits, applySplitsGo, copyAttrForSplit, PB, PBnew,
    List.range_succ, List.set]

theorem MB_cvn : computeVertexNormalsSpec PBnew [2, 0, 1, 3, 4, 5] = NF := by
  norm_num [computeVertexNormalsSpec, triangleNormal, posAt, PBnew, NF,
    Vec3.sub, Vec3.cross, Vec3.normalize, Vec3.len, Vec3.add, List.range_succ,
    Real.sqrt_one]

theorem MB_restore : restoreLoop [some false, some true, some true, some false]
    NrmAuthored NF = RestN := by
  norm_num [restoreLoop, NrmAuthored, NF, RestN, List.range_succ, List.set]

/-- Full evaluation of `modify` on the butterfly at `cutOffAngle = π/2` with
normal preservation requested. -/
theorem MB_eval : modify none MB (Real.pi / 2) true = Except.ok MBout := by
  have hbeq1 : (("normal" : String) == "position") = false := by decide
  have hbeq2 : (("normal" : String) == "normal") = true := by decide
  have hbeq3 : (("position" : String) == "position") = true := by decide
  have hbeq4 : (("position" : String) == "normal") = false := by decide
  have hlen : PB.length = 12 := by norm_num [PB]
  have hlenN : NrmAuthored.length = 12 := by norm_num [NrmAuthored]
  norm_num +decide [modify, MB, MBout, MeshE.getAttribute,
    MeshE.deleteAttribute, MeshE.setAttribute, List.lookup, mergeStep,
    mapPositionsToIndexes, mptiGo, jsArraySet, List.replicate_succ, List.set,
    sequenceOptions, hlen, hlenN, MB_normals, MB_run14, MB_run25,
    edgeSplit_singleton, MB_applySplits, MB_cvn, MB_restore, markChanged,
    buildNewAttributes, reconcileNormals, Real.cos_pi_div_two, hbeq1, hbeq2,
    hbeq3, hbeq4]

/-- The accumulated split list of the butterfly run: one record per shared
vertex, each keyed by the corner slot (not the vertex index) it was split
from. -/
theorem MB_splits : modifySplits PB [2, 0, 1, 3, 0, 1] (Real.pi / 2) 4 =
    [⟨1, [4]⟩, ⟨2, [5]⟩] := by
  have h14 : edgeSplit NF [1, 4] (-(1 / 1000)) none = [⟨1, [4]⟩] :=
    MB_run14 _ (by norm_num)
  have h25 : edgeSplit NF [2, 5] (-(1 / 1000)) none = [⟨2, [5]⟩] :=
    MB_run25 _ (by norm_num)
  rw [modifySplits]
  norm_num [List.range_succ, cornersFrom, MB_normals, h14, h25,
    edgeSplit_singleton, Real.cos_pi_div_two]

/-- Near-coplanar butterfly: the second triangle's normal
`(45/1013, 0, 1012/1013)` differs from the first's `(0,0,1)` but their dot
product `1012/1013 ≈ 0.999013` still clears the `cos 0 - 0.001` cutoff. -/
def P5 : List ℝ := [0, 0, 0, 0, 1, 0, -1, 0, 0, -1012, 0, 45]

def M5 : MeshE := ⟨false, some [2, 0, 1, 3, 0, 1], [("position", ⟨3, P5, false⟩)]⟩

def NF5 : List ℝ :=
  [0, 0, 1, 0, 0, 1, 0, 0, 1,
   45 / 1013, 0, 1012 / 1013, 45 / 1013, 0, 1012 / 1013,
   45 / 1013, 0, 1012 / 1013]

theorem M5_normals : computeNormals P5 [2, 0, 1, 3, 0, 1] = NF5 := by
  have hsq : Real.sqrt 1026169 = 1013 := by
    rw [show (1026169 : ℝ) = 1013 ^ 2 by norm_num]
    exact Real.sqrt_sq (by norm_num)
  norm_num [computeNormals, triangleNormal, posAt, P5, NF5, Vec3.sub,
    Vec3.cross, Vec3.normalize, Vec3.len, List.range_succ, Real.sqrt_one, hsq]

theorem M5_merge14 : ∀ c : ℝ, c ≤ 1012 / 1013 →
    edgeSplit NF5 [1, 4] c none = [] := by
  intro c hc
  have hc2 : ¬((1012 : ℝ) / 1013 < c) := not_lt.2 hc
  rw [edgeSplit]
  norm_num +decide [edgeSplitToGroups, edgeSplitToGroupsStep, selectBest,
    normalAt, NF5, Vec3.normalize, Vec3.len, Vec3.dot, Real.sqrt_one, hc2,
    jsOrIdx]

theorem M5_merge25 : ∀ c : ℝ, c ≤ 1012 / 1013 →
    edgeSplit NF5 [2, 5] c none = [] := by
  intro c hc
  have hc2 : ¬((1012 : ℝ) / 1013 < c) := not_lt.2 hc
  rw [edgeSplit]
  norm_num +decide [edgeSplitToGroups, edgeSplitToGroupsStep, selectBest,
    normalAt, NF5, Vec3.normalize, Vec3.len, Vec3.dot, Real.sqrt_one, hc2,
    jsOrIdx]

/-- At `cutOffAngle = 0` — the spec's "maximal split" setting — the
near-coplanar butterfly records no split at all. -/
theorem M5_splits : modifySplits P5 [2, 0, 1, 3, 0, 1] 0 4 = [] := by
  have h14 : edgeSplit NF5 [1, 4] ((999 : ℝ) / 1000) none = [] :=
    M5_merge14 _ (by norm_num)
  have h25 : edgeSplit NF5 [2, 5] ((999 : ℝ) / 1000) none = [] :=
    M5_merge25 _ (by norm_num)
  rw [modifySplits]
  norm_num [List.range_succ, cornersFrom, M5_normals, h14, h25,
    edgeSplit_singleton, Real.cos_zero]

/-! ## The claims -/

/-- **C7**: an input mesh in a legacy or non-indexable representation with no
merge collaborator available fails immediately: the legacy `THREE.Geometry`
representation aborts with a console error and no result (modelled
`legacyGeometry`), and a non-indexed `BufferGeometry` without
`BufferGeometryUtils` throws (`missingUtils`).  No mesh is produced, and the
embedding being pure — mirroring that the source never mutates the caller's
geometry before these checks — the caller's mesh is untouched. -/
theorem C7_unsupported_format (g : MeshE) (angle : ℝ) (tkn : Bool)
    (hni : g.index = none) :
    modify none g angle tkn =
      Except.error (if g.isGeometry = true then ModifyError.legacyGeometry
        else ModifyError.missingUtils) := by
  by_cases hg : g.isGeometry = true
  · simp [modify, hg]
  · have hg1 : (if (g.getAttribute "normal").isSome = true then
        g.deleteAttribute "normal" else g).index = none := by
      by_cases hn : (g.getAttribute "normal").isSome = true <;>
        simp [hn, deleteAttribute_index, hni]
    have hmerge : mergeStep none (if (g.getAttribute "normal").isSome = true
        then g.deleteAttribute "normal" else g) =
        Except.error ModifyError.missingUtils := by
      unfold mergeStep
      rw [if_pos hg1]
    simp [modify, hg, hmerge]

theorem C7_unsupported_format_witness :
    (MeshE.index ⟨false, none, []⟩ = none) ∧
    modify none ⟨false, none, []⟩ 0 true =
      Except.error ModifyError.missingUtils := by
  refine ⟨rfl, ?_⟩
  have h := C7_unsupported_format ⟨false, none, []⟩ 0 true rfl
  simpa using h

/-- **C8**: the grouping recursion terminates on every finite corner list —
the winning seed's current group is never empty, so the split group passed to
the recursive call is strictly shorter than the corner list it came from;
in the worst case the recursion emits one record per corner. -/
theorem C8_termination (normals : List ℝ) (cutOff : ℝ) (L : List ℕ)
    (hL : L ≠ []) :
    (selectBest (L.map (edgeSplitToGroups normals L cutOff))).currentGroup
      ≠ [] ∧
    (selectBest (L.map (edgeSplitToGroups normals L cutOff))).splitGroup.length
      < L.length ∧
    ∀ o, (edgeSplit normals L cutOff o).length ≤ L.length := by
  refine ⟨?_, selectBest_splitGroup_lt normals L cutOff hL,
    fun o => edgeSplit_length_le normals cutOff L o⟩
  obtain ⟨s, hs, heq⟩ := List.mem_map.1
    (selectBest_mem (L.map (edgeSplitToGroups normals L cutOff))
      (by simpa using hL))
  rw [← heq]
  exact currentGroup_ne_nil normals L cutOff s

theorem C8_termination_witness :
    (([0] : List ℕ) ≠ []) ∧
    ((selectBest ([0].map
        (edgeSplitToGroups ([] : List ℝ) [0] 0))).currentGroup ≠ [] ∧
     (selectBest ([0].map
        (edgeSplitToGroups ([] : List ℝ) [0] 0))).splitGroup.length
        < ([0] : List ℕ).length ∧
     ∀ o, (edgeSplit ([] : List ℝ) [0] 0 o).length ≤ ([0] : List ℕ).length) :=
  ⟨by decide, C8_termination [] 0 [0] (by decide)⟩

/-- **C4**: on a non-empty corner list every corner is evaluated as a
candidate seed; a seed's trial partition keeps, besides the seed itself,
exactly the corners whose stored normal has dot product with the seed's at
least the threshold (the others form the split group, both in corner-list
order), and the emitted partition is the first one of maximal current-group
size: everything before it in candidate order is strictly smaller, everything
after it no larger. -/
theorem C4_greedy_partitioner (normals : List ℝ) (cutOff : ℝ) (L : List ℕ)
    (hL : L ≠ []) :
    (∀ s ∈ L, edgeSplitToGroups normals L cutOff s =
      ⟨L.filter (fun j => decide (j ≠ s) &&
         decide ((normalAt normals j).dot (normalAt normals s) < cutOff)),
       s :: L.filter (fun j => decide (j ≠ s) &&
         decide (cutOff ≤ (normalAt normals j).dot (normalAt normals s)))⟩) ∧
    ∃ pre post,
      L.map (edgeSplitToGroups normals L cutOff) =
        pre ++ selectBest (L.map (edgeSplitToGroups normals L cutOff))
          :: post ∧
      (∀ r ∈ pre, r.currentGroup.length <
        (selectBest (L.map
          (edgeSplitToGroups normals L cutOff))).currentGroup.length) ∧
      (∀ r ∈ post, r.currentGroup.length ≤
        (selectBest (L.map
          (edgeSplitToGroups normals L cutOff))).currentGroup.length) := by
  constructor
  · intro s hs
    rw [edgeSplitToGroups_eq]
    have hfil : L.filter (fun j => decide (j ≠ s) &&
        !decide ((normalAt normals j).dot (normalAt normals s) < cutOff)) =
        L.filter (fun j => decide (j ≠ s) &&
        decide (cutOff ≤ (normalAt normals j).dot (normalAt normals s))) := by
      apply List.filter_congr
      intro j _
      by_cases hjs : j = s
      · simp [hjs]
      · by_cases hd : (normalAt normals j).dot (normalAt normals s) < cutOff
        · simp [hjs, hd, not_le.2 hd]
        · simp [hjs, hd, not_lt.1 hd]
    rw [hfil]
  · cases L with
    | nil => exact absurd rfl hL
    | cons a t =>
        rw [List.map_cons, selectBest_eq_selectBestFrom]
        obtain ⟨pre, post, heq, hlt, hge⟩ :=
          selectBestFrom_first_max
            (t.map (edgeSplitToGroups normals (a :: t) cutOff))
            (edgeSplitToGroups normals (a :: t) cutOff a)
        exact ⟨pre, post, heq, hlt, fun r hr => hge r hr⟩

theorem C4_greedy_partitioner_witness :
    (([0] : List ℕ) ≠ []) ∧
    ((∀ s ∈ ([0] : List ℕ), edgeSplitToGroups ([] : List ℝ) [0] 0 s =
      ⟨[0].filter (fun j => decide (j ≠ s) &&
         decide ((normalAt [] j).dot (normalAt [] s) < (0 : ℝ))),
       s :: [0].filter (fun j => decide (j ≠ s) &&
         decide ((0 : ℝ) ≤ (normalAt [] j).dot (normalAt [] s)))⟩) ∧
    ∃ pre post,
      [0].map (edgeSplitToGroups ([] : List ℝ) [0] 0) =
        pre ++ selectBest ([0].map (edgeSplitToGroups ([] : List ℝ) [0] 0))
          :: post ∧
      (∀ r ∈ pre, r.currentGroup.length <
        (selectBest ([0].map
          (edgeSplitToGroups ([] : List ℝ) [0] 0))).currentGroup.length) ∧
      (∀ r ∈ post, r.currentGroup.length ≤
        (selectBest ([0].map
          (edgeSplitToGroups ([] : List ℝ) [0] 0))).currentGroup.length)) :=
  ⟨by decide, C4_greedy_partitioner [] 0 [0] (by decide)⟩

/-- **C2** (code bug): the Corner Index does match its mapping contract — on
the one-triangle mesh over four vertices each referenced vertex maps to its
ordered slot list — but the unreferenced vertex 3 becomes a hole (JS
`undefined`), not an empty sequence, and `modify` on this otherwise valid
mesh then crashes with a `TypeError` (`undefined.length` in `edgeSplit`)
instead of completing without error. -/
theorem C2_unreferenced_vertex_crash :
    mapPositionsToIndexes [0, 1, 2] 4 = [some [0], some [1], some [2], none] ∧
    M2.isGeometry = false ∧
    M2.index = some [0, 1, 2] ∧
    P2.length = 3 * 4 ∧
    (∀ i ∈ [0, 1, 2], i < 4) ∧
    (3 : ℕ) ∉ [0, 1, 2] ∧
    modify none M2 (Real.pi / 2) true = Except.error ModifyError.typeError :=
  ⟨by decide, rfl, rfl, by norm_num [P2], by decide, by decide,
    M2_modify_typeError _ _⟩

/-- **C3 counterexample**: `M3` carries a `uv` attribute of 4 entries where
its 3 vertices demand `3 * 2 = 6` — an attribute buffer length inconsistent
with the vertex count — yet the call does not fail with any topology error:
it succeeds and returns a rebuilt mesh. -/
theorem C3_counterexample :
    (M3.getAttribute "uv").map (fun a => a.array.length) = some 4 ∧
    (M3.getAttribute "uv").map (fun a => a.itemSize) = some 2 ∧
    (M3.getAttribute "position").map (fun a => a.array.length) =
      some (3 * 3) ∧
    modify none M3 (Real.pi / 2) true = Except.ok M3out :=
  ⟨rfl, rfl, rfl, M3_eval _⟩

/-- **C3 (amended)**: no topology validation exists.  The failure taxonomy
consists only of the legacy-geometry refusal, the missing-merge-collaborator
throw and implicit type errors; a mesh whose attribute buffer length is
inconsistent with its vertex count is accepted at every cutoff angle, the
undersized attribute silently zero-padded in the rebuilt result. -/
theorem C3_no_topology_validation :
    (∀ e : ModifyError, e = ModifyError.legacyGeometry ∨
      e = ModifyError.missingUtils ∨ e = ModifyError.typeError) ∧
    ∀ a : ℝ, modify none M3 a true = Except.ok M3out :=
  ⟨fun e => by cases e <;> simp, fun a => M3_eval a⟩

/-- **C5 counterexample**: at `cutOffAngle = 0` the effective threshold is
`cos 0 - 0.001 = 0.999`, so corners whose face normals are distinct but
close (here dot product `1012/1013 ≈ 0.99901`) are kept in one group: on the
near-coplanar butterfly no split is recorded at all, although its two face
normals are not exactly identical. -/
theorem C5_counterexample :
    computeNormals P5 [2, 0, 1, 3, 0, 1] = NF5 ∧
    NF5.getD 0 0 ≠ NF5.getD 9 0 ∧
    modifySplits P5 [2, 0, 1, 3, 0, 1] 0 4 = [] :=
  ⟨M5_normals, by norm_num [NF5], M5_splits⟩

/-- **C5 (amended)**: the `cutOffAngle = 0` threshold is `cos 0 - 0.001`,
not exact normal equality.  Whenever the stored normals of a corner list are
pairwise strictly below that threshold, the recursion does singletonise it:
every corner after the top-level seed receives its own one-corner group. -/
theorem C5_maximal_split (normals : List ℝ) (L : List ℕ) (hnd : L.Nodup)
    (hfar : ∀ i ∈ L, ∀ j ∈ L, i ≠ j →
      (normalAt normals i).dot (normalAt normals j) < Real.cos 0 - 1 / 1000) :
    (edgeSplit normals L (Real.cos 0 - 1 / 1000) none).map SplitData.indexes =
      L.tail.map (fun j => [j]) := by
  have h := edgeSplit_pairwise_far normals (Real.cos 0 - 1 / 1000) L hnd
    hfar none
  simpa using h

theorem C5_maximal_split_witness :
    ([1, 4] : List ℕ).Nodup ∧
    (∀ i ∈ ([1, 4] : List ℕ), ∀ j ∈ ([1, 4] : List ℕ), i ≠ j →
      (normalAt NF i).dot (normalAt NF j) < Real.cos 0 - 1 / 1000) ∧
    (edgeSplit NF [1, 4] (Real.cos 0 - 1 / 1000) none).map SplitData.indexes =
      [[4]] := by
  have hfar : ∀ i ∈ ([1, 4] : List ℕ), ∀ j ∈ ([1, 4] : List ℕ), i ≠ j →
      (normalAt NF i).dot (normalAt NF j) < Real.cos 0 - 1 / 1000 := by
    intro i hi j hj hij
    simp only [List.mem_cons, List.not_mem_nil, or_false] at hi hj
    rcases hi with rfl | rfl <;> rcases hj with rfl | rfl <;>
      first
        | exact absurd rfl hij
        | norm_num [normalAt, NF, Vec3.normalize, Vec3.dot, Vec3.len,
            Real.sqrt_one, Real.cos_zero]
  refine ⟨by decide, hfar, ?_⟩
  have h := C5_maximal_split NF [1, 4] (by decide) hfar
  simpa using h

/-- **C1** (code bug): on the butterfly with authored normals and
`tryKeepNormals = true`, the reconciler marks
`changedNormals[splitData.original]` where `original` is a corner slot
position, not a vertex index.  The run splits vertices 0 and 1 (their group
records carry original corner slots 1 and 2), yet the output restores the
authored normal at the split-affected vertex 0 and keeps the recomputed
normal at the never-split vertex 2 — both directions of the claimed
preservation fail on this mesh. -/
theorem C1_normal_preservation_bug :
    modify none MB (Real.pi / 2) true = Except.ok MBout ∧
    (modifySplits PB [2, 0, 1, 3, 0, 1] (Real.pi / 2) 4).map
      (fun sd => [2, 0, 1, 3, 0, 1].getD sd.original 0) = [0, 1] ∧
    (MBout.getAttribute "normal").map (fun a => a.array) = some RestN ∧
    computeVertexNormalsSpec PBnew [2, 0, 1, 3, 4, 5] = NF ∧
    ((2 : ℕ) ∉ [0, 1] ∧ RestN.getD 6 0 ≠ NrmAuthored.getD 6 0) ∧
    ((0 : ℕ) ∈ [0, 1] ∧ RestN.getD 2 0 ≠ NF.getD 2 0) := by
  refine ⟨MB_eval, ?_, rfl, MB_cvn,
    ⟨by decide, by norm_num [RestN, NrmAuthored]⟩,
    ⟨by decide, by norm_num [RestN, NF]⟩⟩
  rw [MB_splits]
  rfl

/-- **C6 counterexample**: `cutOffAngle = π` on the valid indexed mesh `M2`
(three corners, vertex 3 stored but unreferenced) does not return the input
unchanged — the call crashes with a `TypeError`, refuting the identity on
"any valid mesh". -/
theorem C6_counterexample :
    M2.isGeometry = false ∧ M2.index = some [0, 1, 2] ∧
    (∀ i ∈ [0, 1, 2], i < 4) ∧ P2.length = 3 * 4 ∧
    modify none M2 Real.pi true = Except.error ModifyError.typeError :=
  ⟨rfl, rfl, by decide, by norm_num [P2], M2_modify_typeError _ _⟩

/-- **C6 (amended)**: at `cutOffAngle = π` the cutoff `cos π - 0.001 < -1`
accepts every normal pair, so on a non-legacy indexed mesh whose index buffer
references every stored vertex (the unreferenced-vertex crash of C2 aside)
no split is recorded and the output is geometrically identical to the input:
same index buffer, same position attribute and — with preservation on — the
authored normal values restored verbatim. -/
theorem C6_generous_identity (utils : Option (MeshE → MeshE)) (g : MeshE)
    (ib : List ℕ) (pa na : BufferAttributeE) (V : ℕ)
    (hGeom : g.isGeometry = false)
    (hIdx : g.index = some ib)
    (hPos : g.getAttribute "position" = some pa)
    (hNorm : g.getAttribute "normal" = some na)
    (hSz : pa.itemSize = 3)
    (hNs : na.itemSize = 3)
    (hLen : pa.array.length = 3 * V)
    (hRange : ∀ i ∈ ib, i < V)
    (hAttrs : ∀ p ∈ g.attributes, p.2.array.length = V * p.2.itemSize)
    (href : ∀ v, v < V → v ∈ ib) :
    modifySplits pa.array ib Real.pi V = [] ∧
    ∃ out, modify utils g Real.pi true = Except.ok out ∧
      out.index = some ib ∧
      out.getAttribute "position" = some pa ∧
      (out.getAttribute "normal").map (fun a => a.array) = some na.array := by
  have hcut : Real.cos Real.pi - 1 / 1000 < -1 := by
    rw [Real.cos_pi]
    norm_num
  have hsplits : modifySplits pa.array ib Real.pi V = [] :=
    modifySplits_generous pa.array ib Real.pi V hcut
  have heval := modify_eval utils g Real.pi true ib pa V hGeom hIdx hPos hSz
    hLen hRange hAttrs href
  rw [hsplits] at heval
  have hadN : (g.getAttribute "normal").isSome = true := by
    rw [hNorm]
    rfl
  have hstrip : strippedAttrs g =
      g.attributes.filter (fun p => p.1 ≠ "normal") :=
    strippedAttrs_of_normal g hadN
  have hstrA : ∀ p ∈ strippedAttrs g,
      p.2.array.length = V * p.2.itemSize := by
    intro p hp
    rw [hstrip] at hp
    exact hAttrs p (List.mem_of_mem_filter hp)
  have hmapid : (strippedAttrs g).map
      (allocAttr (V + ([] : List SplitData).length)) = strippedAttrs g := by
    rw [show V + ([] : List SplitData).length = V from by simp]
    exact map_allocAttr_exact V _ hstrA
  rw [hmapid] at heval
  have happ : applySplits ib V (strippedAttrs g) ib [] =
      (strippedAttrs g, ib) := rfl
  rw [happ] at heval
  simp only [hNorm, hIdx, Option.isSome_some, Option.map_some', ne_eq] at heval
  rw [if_pos (by simp)] at heval
  have hgmpos : (⟨false, some ib, strippedAttrs g⟩ : MeshE).getAttribute
      "position" = some pa := by
    show (strippedAttrs g).lookup "position" = some pa
    rw [lookup_strippedAttrs_ne g "position" (by decide)]
    exact hPos
  have hnalen : na.array.length = 3 * V := by
    have hmemna := hAttrs ("normal", na) (lookup_mem "normal" g.attributes
      na hNorm)
    simp only at hmemna
    rw [hNs] at hmemna
    omega
  have houtnorm : ((reconcileNormals true (some na.array) []
      (⟨false, some ib, strippedAttrs g⟩ : MeshE)).getAttribute
        "normal").map (fun a => a.array) = some na.array := by
    unfold reconcileNormals
    rw [if_pos rfl]
    simp only [hgmpos, Option.map_some', Option.getD_some,
      getAttribute_setAttribute_self]
    have hmc : markChanged (na.array.length / 3) [] =
        List.replicate V (some false) := by
      rw [markChanged, List.foldl_nil, hnalen]
      rw [show 3 * V / 3 = V from by omega]
    rw [hmc]
    rw [restoreLoop_replicate_full V na.array _ (by omega)
      (by rw [computeVertexNormalsSpec_length, hLen]; omega)]
  refine ⟨hsplits, reconcileNormals true (some na.array) []
    ⟨false, some ib, strippedAttrs g⟩, heval, ?_, ?_, houtnorm⟩
  · rw [reconcileNormals_index]
  · rw [reconcileNormals_getAttribute_ne true (some na.array) [] _ "position"
      (by decide)]
    show (strippedAttrs g).lookup "position" = some pa
    rw [lookup_strippedAttrs_ne g "position" (by decide)]
    exact hPos

theorem C6_generous_identity_witness :
    (MB.isGeometry = false ∧ MB.index = some [2, 0, 1, 3, 0, 1] ∧
     MB.getAttribute "position" = some ⟨3, PB, false⟩ ∧
     MB.getAttribute "normal" = some ⟨3, NrmAuthored, false⟩ ∧
     PB.length = 3 * 4 ∧ (∀ i ∈ [2, 0, 1, 3, 0, 1], i < 4) ∧
     (∀ v, v < 4 → v ∈ [2, 0, 1, 3, 0, 1])) ∧
    (modifySplits PB [2, 0, 1, 3, 0, 1] Real.pi 4 = [] ∧
     ∃ out, modify none MB Real.pi true = Except.ok out ∧
       out.index = some [2, 0, 1, 3, 0, 1] ∧
       out.getAttribute "position" = some ⟨3, PB, false⟩ ∧
       (out.getAttribute "normal").map (fun a => a.array) =
         some NrmAuthored) := by
  refine ⟨⟨rfl, rfl, rfl, rfl, by norm_num [PB], by decide, by decide⟩, ?_⟩
  refine C6_generous_identity none MB [2, 0, 1, 3, 0, 1] ⟨3, PB, false⟩
    ⟨3, NrmAuthored, false⟩ 4 rfl rfl rfl rfl rfl rfl (by norm_num [PB])
    (by decide) ?_ (by decide)
  intro p hp
  have hp2 : p ∈ [("position", (⟨3, PB, false⟩ : BufferAttributeE)),
      ("normal", ⟨3, NrmAuthored, false⟩)] := hp
  simp only [List.mem_cons, List.not_mem_nil, or_false] at hp2
  rcases hp2 with rfl | rfl <;> norm_num [PB, NrmAuthored]

/-- **C10**: a successful run preserves the triangle structure — the
rewritten index buffer has exactly the input's length (hence the same
triangle count, with corners kept in slot order, so winding is unchanged),
and every corner slot either keeps its original vertex index or is
redirected in place to the appended slot `V + k` of the `k`-th split record,
a record descending from the very vertex the slot referenced. -/
theorem C10_triangle_invariance (utils : Option (MeshE → MeshE))
    (g out : MeshE) (angle : ℝ) (tkn : Bool) (ib : List ℕ)
    (pa : BufferAttributeE) (V : ℕ)
    (hGeom : g.isGeometry = false)
    (hIdx : g.index = some ib)
    (hPos : g.getAttribute "position" = some pa)
    (hSz : pa.itemSize = 3)
    (hLen : pa.array.length = 3 * V)
    (hRange : ∀ i ∈ ib, i < V)
    (hAttrs : ∀ p ∈ g.attributes, p.2.array.length = V * p.2.itemSize)
    (hOk : modify utils g angle tkn = Except.ok out) :
    ∃ ni, out.index = some ni ∧ ni.length = ib.length ∧
      ∀ s, s < ib.length →
        (ni.getD s 0 = ib.getD s 0 ∨
         ∃ k sd, (modifySplits pa.array ib angle V)[k]? = some sd ∧
           s ∈ sd.indexes ∧ ni.getD s 0 = V + k ∧
           ib.getD sd.original 0 = ib.getD s 0) := by
  obtain ⟨href, hout⟩ := modify_ok_spec utils g out angle tkn ib pa V hGeom
    hIdx hPos hSz hLen hRange hAttrs hOk
  refine ⟨(applySplits ib V ((strippedAttrs g).map
      (allocAttr (V + (modifySplits pa.array ib angle V).length)))
      ib (modifySplits pa.array ib angle V)).2, ?_, ?_, ?_⟩
  · rw [hout, reconcileNormals_index]
  · exact (applySplits_index_spec pa.array ib angle V _).1
  · intro s hs
    rcases (applySplits_index_spec pa.array ib angle V _).2 s hs with
      h | ⟨k, sd, h1, h2, h3, _h4, h5⟩
    · exact Or.inl h
    · exact Or.inr ⟨k, sd, h1, h2, h3, h5⟩

theorem C10_triangle_invariance_witness :
    ∃ ni, MBout.index = some ni ∧
      ni.length = ([2, 0, 1, 3, 0, 1] : List ℕ).length ∧
      ∀ s, s < ([2, 0, 1, 3, 0, 1] : List ℕ).length →
        (ni.getD s 0 = [2, 0, 1, 3, 0, 1].getD s 0 ∨
         ∃ k sd, (modifySplits PB [2, 0, 1, 3, 0, 1] (Real.pi / 2) 4)[k]?
             = some sd ∧
           s ∈ sd.indexes ∧ ni.getD s 0 = 4 + k ∧
           [2, 0, 1, 3, 0, 1].getD sd.original 0
             = [2, 0, 1, 3, 0, 1].getD s 0) := by
  refine C10_triangle_invariance none MB MBout (Real.pi / 2) true
    [2, 0, 1, 3, 0, 1] ⟨3, PB, false⟩ 4 rfl rfl rfl rfl (by norm_num [PB])
    (by decide) ?_ MB_eval
  intro p hp
  have hp2 : p ∈ [("position", (⟨3, PB, false⟩ : BufferAttributeE)),
      ("normal", ⟨3, NrmAuthored, false⟩)] := hp
  simp only [List.mem_cons, List.not_mem_nil, or_false] at hp2
  rcases hp2 with rfl | rfl <;> norm_num [PB, NrmAuthored]

/-- **C9**: on a successful run, position fidelity holds for every output
corner — the position triple of the vertex slot it references equals the
input position triple of the vertex it descended from — and every non-normal
attribute reappears with the same item size and normalization flag, its
appended slot `V + k` carrying, componentwise, the values stored at the
vertex referenced by the `k`-th split record's original corner. -/
theorem C9_verbatim_copy (utils : Option (MeshE → MeshE))
    (g out : MeshE) (angle : ℝ) (tkn : Bool) (ib : List ℕ)
    (pa : BufferAttributeE) (V : ℕ)
    (hGeom : g.isGeometry = false)
    (hIdx : g.index = some ib)
    (hPos : g.getAttribute "position" = some pa)
    (hSz : pa.itemSize = 3)
    (hLen : pa.array.length = 3 * V)
    (hRange : ∀ i ∈ ib, i < V)
    (hAttrs : ∀ p ∈ g.attributes, p.2.array.length = V * p.2.itemSize)
    (hOk : modify utils g angle tkn = Except.ok out) :
    ∃ pos2 ni, out.getAttribute "position" = some pos2 ∧
      out.index = some ni ∧
      (∀ s, s < ib.length → ∀ j, j < 3 →
        pos2.array.getD (ni.getD s 0 * 3 + j) 0 =
          pa.array.getD (ib.getD s 0 * 3 + j) 0) ∧
      (∀ nm a, nm ≠ "normal" → g.getAttribute nm = some a →
        ∃ a2, out.getAttribute nm = some a2 ∧
          a2.itemSize = a.itemSize ∧ a2.normalized = a.normalized ∧
          a2.array.length =
            (V + (modifySplits pa.array ib angle V).length) * a.itemSize ∧
          ∀ k sd, (modifySplits pa.array ib angle V)[k]? = some sd →
            ∀ j, j < a.itemSize →
              a2.array.getD ((V + k) * a.itemSize + j) 0 =
                a.array.getD (ib.getD sd.original 0 * a.itemSize + j) 0) := by
  obtain ⟨href, hout⟩ := modify_ok_spec utils g out angle tkn ib pa V hGeom
    hIdx hPos hSz hLen hRange hAttrs hOk
  have hsrc : ∀ sd ∈ modifySplits pa.array ib angle V,
      ib.getD sd.original 0 < V := fun sd hsd =>
    (modifySplits_records pa.array ib angle V sd hsd).2.2.1
  have hfst : (applySplits ib V ((strippedAttrs g).map
      (allocAttr (V + (modifySplits pa.array ib angle V).length)))
      ib (modifySplits pa.array ib angle V)).1 =
      ((strippedAttrs g).map
        (allocAttr (V + (modifySplits pa.array ib angle V).length))).map
        (fun q => (q.1, attrFold ib V 0 (modifySplits pa.array ib angle V)
          q.2)) :=
    applySplitsGo_fst ib V (modifySplits pa.array ib angle V) 0 _ ib
  -- generic lookup of a surviving attribute through the rebuilt dictionary
  have hattr : ∀ nm a, nm ≠ "normal" → g.getAttribute nm = some a →
      out.getAttribute nm = some (attrFold ib V 0
        (modifySplits pa.array ib angle V)
        ⟨a.itemSize, a.array ++ List.replicate
          ((V + (modifySplits pa.array ib angle V).length) * a.itemSize
            - a.array.length) 0, a.normalized⟩) := by
    intro nm a hnm hga
    have hlook1 : (strippedAttrs g).lookup nm = some a := by
      rw [lookup_strippedAttrs_ne g nm hnm]
      exact hga
    have hnewlook : (((strippedAttrs g).map
        (allocAttr (V + (modifySplits pa.array ib angle V).length))).lookup
          nm) = some ⟨a.itemSize, a.array ++ List.replicate
          ((V + (modifySplits pa.array ib angle V).length) * a.itemSize
            - a.array.length) 0, a.normalized⟩ :=
      calc ((strippedAttrs g).map
          (allocAttr (V + (modifySplits pa.array ib angle V).length))).lookup
            nm
          = ((strippedAttrs g).lookup nm).map (fun b =>
              (⟨b.itemSize, b.array ++ List.replicate
                ((V + (modifySplits pa.array ib angle V).length) * b.itemSize
                  - b.array.length) 0, b.normalized⟩ : BufferAttributeE)) :=
            lookup_map_value (fun b =>
              (⟨b.itemSize, b.array ++ List.replicate
                ((V + (modifySplits pa.array ib angle V).length) * b.itemSize
                  - b.array.length) 0, b.normalized⟩ : BufferAttributeE))
              nm (strippedAttrs g)
        _ = some ⟨a.itemSize, a.array ++ List.replicate
              ((V + (modifySplits pa.array ib angle V).length) * a.itemSize
                - a.array.length) 0, a.normalized⟩ := by
            rw [hlook1]
            rfl
    rw [hout]
    rw [reconcileNormals_getAttribute_ne _ _ _ _ nm hnm]
    show ((applySplits ib V ((strippedAttrs g).map
      (allocAttr (V + (modifySplits pa.array ib angle V).length)))
      ib (modifySplits pa.array ib angle V)).1).lookup nm = _
    rw [hfst]
    rw [lookup_map_value (attrFold ib V 0 (modifySplits pa.array ib angle V))
      nm]
    rw [hnewlook]
    rfl
  have halloclen : ∀ (a : BufferAttributeE),
      a.array.length = V * a.itemSize →
      (a.array ++ List.replicate
        ((V + (modifySplits pa.array ib angle V).length) * a.itemSize
          - a.array.length) 0).length =
        (V + (modifySplits pa.array ib angle V).length) * a.itemSize := by
    intro a ha
    rw [List.length_append, List.length_replicate]
    have hmul : V * a.itemSize ≤
        (V + (modifySplits pa.array ib angle V).length) * a.itemSize :=
      Nat.mul_le_mul_right _ (by omega)
    omega
  have hposmem : pa.array.length = V * pa.itemSize := by
    have := hAttrs ("position", pa) (lookup_mem "position" g.attributes pa
      hPos)
    simpa using this
  have hspec := attrFold_spec ib V (modifySplits pa.array ib angle V)
    ⟨pa.itemSize, pa.array ++ List.replicate
      ((V + (modifySplits pa.array ib angle V).length) * pa.itemSize
        - pa.array.length) 0, pa.normalized⟩ hsrc
    (halloclen pa hposmem)
  refine ⟨attrFold ib V 0 (modifySplits pa.array ib angle V)
      ⟨pa.itemSize, pa.array ++ List.replicate
        ((V + (modifySplits pa.array ib angle V).length) * pa.itemSize
          - pa.array.length) 0, pa.normalized⟩,
    (applySplits ib V ((strippedAttrs g).map
      (allocAttr (V + (modifySplits pa.array ib angle V).length)))
      ib (modifySplits pa.array ib angle V)).2,
    hattr "position" pa (by decide) hPos, ?_, ?_, ?_⟩
  · rw [hout, reconcileNormals_index]
  · -- position fidelity per corner
    intro s hs j hj
    have hsv : ib.getD s 0 < V := by
      have hmem : ib.getD s 0 ∈ ib := by
        rw [List.getD_eq_getElem?_getD, List.getElem?_eq_getElem hs]
        exact List.getElem_mem hs
      exact hRange _ hmem
    have hlt4 : ∀ kk, kk < V * pa.itemSize →
        (attrFold ib V 0 (modifySplits pa.array ib angle V)
          ⟨pa.itemSize, pa.array ++ List.replicate
            ((V + (modifySplits pa.array ib angle V).length) * pa.itemSize
              - pa.array.length) 0, pa.normalized⟩).array.getD kk 0 =
        (pa.array ++ List.replicate
          ((V + (modifySplits pa.array ib angle V).length) * pa.itemSize
            - pa.array.length) 0).getD kk 0 := hspec.2.2.2.1
    have hnew5 : ∀ k sd,
        (modifySplits pa.array ib angle V)[k]? = some sd →
        ∀ j2, j2 < pa.itemSize →
        (attrFold ib V 0 (modifySplits pa.array ib angle V)
          ⟨pa.itemSize, pa.array ++ List.replicate
            ((V + (modifySplits pa.array ib angle V).length) * pa.itemSize
              - pa.array.length) 0, pa.normalized⟩).array.getD
          ((V + k) * pa.itemSize + j2) 0 =
        (pa.array ++ List.replicate
          ((V + (modifySplits pa.array ib angle V).length) * pa.itemSize
            - pa.array.length) 0).getD
          ((ib.getD sd.original 0) * pa.itemSize + j2) 0 := hspec.2.2.2.2
    have hj2 : j < pa.itemSize := by
      rw [hSz]
      exact hj
    have hbnd : ib.getD s 0 * pa.itemSize + j < pa.array.length := by
      rw [hposmem]
      have hms : (ib.getD s 0 + 1) * pa.itemSize ≤ V * pa.itemSize :=
        Nat.mul_le_mul_right _ (by omega)
      rw [Nat.succ_mul] at hms
      omega
    rcases (applySplits_index_spec pa.array ib angle V _).2 s hs with
      h | ⟨k, sd, h1, h2, h3, _h4, h5⟩
    · rw [h]
      rw [show (3 : ℕ) = pa.itemSize from hSz.symm]
      rw [hlt4 (ib.getD s 0 * pa.itemSize + j) (by
        rw [← hposmem]
        exact hbnd)]
      exact getD_append_left _ _ _ hbnd 0
    · rw [h3]
      rw [show (3 : ℕ) = pa.itemSize from hSz.symm]
      rw [hnew5 k sd h1 j hj2]
      rw [h5]
      exact getD_append_left _ _ _ hbnd 0
  · -- verbatim copy of every surviving attribute
    intro nm a hnm hga
    have halen : a.array.length = V * a.itemSize := by
      have := hAttrs (nm, a) (lookup_mem nm g.attributes a hga)
      simpa using this
    have hspeca := attrFold_spec ib V (modifySplits pa.array ib angle V)
      ⟨a.itemSize, a.array ++ List.replicate
        ((V + (modifySplits pa.array ib angle V).length) * a.itemSize
          - a.array.length) 0, a.normalized⟩ hsrc
      (halloclen a halen)
    refine ⟨attrFold ib V 0 (modifySplits pa.array ib angle V)
        ⟨a.itemSize, a.array ++ List.replicate
          ((V + (modifySplits pa.array ib angle V).length) * a.itemSize
            - a.array.length) 0, a.normalized⟩,
      hattr nm a hnm hga, hspeca.1, hspeca.2.1, ?_, ?_⟩
    · rw [hspeca.2.2.1]
      exact halloclen a halen
    · intro k sd hk j hj
      have hv := hspeca.2.2.2.2 k sd hk j hj
      rw [hv]
      have hsdmem : sd ∈ modifySplits pa.array ib angle V := by
        have hklt := (List.getElem?_eq_some_iff.1 hk).1
        have hgk : (modifySplits pa.array ib angle V)[k] = sd := by
          have := List.getElem?_eq_getElem hklt
          rw [this] at hk
          exact Option.some.inj hk
        rw [← hgk]
        exact List.getElem_mem hklt
      have hsrck : ib.getD sd.original 0 < V := hsrc sd hsdmem
      show (a.array ++ _).getD (ib.getD sd.original 0 * a.itemSize + j) 0 =
        a.array.getD (ib.getD sd.original 0 * a.itemSize + j) 0
      apply getD_append_left
      rw [halen]
      have hms : (ib.getD sd.original 0 + 1) * a.itemSize ≤ V * a.itemSize :=
        Nat.mul_le_mul_right _ (by omega)
      rw [Nat.succ_mul] at hms
      omega

theorem C9_verbatim_copy_witness :
    ∃ pos2 ni, MBout.getAttribute "position" = some pos2 ∧
      MBout.index = some ni ∧
      (∀ s, s < ([2, 0, 1, 3, 0, 1] : List ℕ).length → ∀ j, j < 3 →
        pos2.array.getD (ni.getD s 0 * 3 + j) 0 =
          PB.getD ([2, 0, 1, 3, 0, 1].getD s 0 * 3 + j) 0) ∧
      (∀ nm a, nm ≠ "normal" → MB.getAttribute nm = some a →
        ∃ a2, MBout.getAttribute nm = some a2 ∧
          a2.itemSize = a.itemSize ∧ a2.normalized = a.normalized ∧
          a2.array.length =
            (4 + (modifySplits PB [2, 0, 1, 3, 0, 1] (Real.pi / 2) 4).length)
              * a.itemSize ∧
          ∀ k sd, (modifySplits PB [2, 0, 1, 3, 0, 1] (Real.pi / 2) 4)[k]?
              = some sd →
            ∀ j, j < a.itemSize →
              a2.array.getD ((4 + k) * a.itemSize + j) 0 =
                a.array.getD
                  ([2, 0, 1, 3, 0, 1].getD sd.original 0 * a.itemSize + j)
                  0) := by
  refine C9_verbatim_copy none MB MBout (Real.pi / 2) true
    [2, 0, 1, 3, 0, 1] ⟨3, PB, false⟩ 4 rfl rfl rfl rfl (by norm_num [PB])
    (by decide) ?_ MB_eval
  intro p hp
  have hp2 : p ∈ [("position", (⟨3, PB, false⟩ : BufferAttributeE)),
      ("normal", ⟨3, NrmAuthored, false⟩)] := hp
  simp only [List.mem_cons, List.not_mem_nil, or_false] at hp2
  rcases hp2 with rfl | rfl <;> norm_num [PB, NrmAuthored]

end

end EdgeSplitMod
